import Mathlib

/-
  Verification of the keyed-db collection (`src/KeyedDB.ts` and the Ordered
  Search routine it is built on).

  The embedding is a direct functional translation of the TypeScript source:
  the mutable `array`/`dict` pair of a `KeyedDB` instance becomes an explicit
  state record, JavaScript's in-place mutations become state-passing
  functions, `undefined`/`null` values become `Option`, thrown exceptions
  become an error component in the result, and an out-of-range array access
  whose result is fed to a key extractor becomes an `Option`-valued lookup
  (`none` corresponding to the `TypeError` the original code raises there).
-/

set_option linter.unusedVariables false
set_option linter.unusedSectionVars false

namespace KeyedDb

/-- The two pagination modes of `Types.ts` (`'before' | 'after'`). -/
inductive PaginationMode where
  | before
  | after
deriving DecidableEq, Repr

/-- The error taxonomy of the collection, named as in the specification:
`InvalidValue` (`'falsey value'`), `DuplicateIdentity`
(`'duplicate ID being inserted'`), `DuplicateKey` (`'duplicate key: …'`) and
`NotFound` (`'Value not found'`). -/
inductive DBError where
  | invalidValue
  | duplicateIdentity
  | duplicateKey
  | notFound
deriving DecidableEq, Repr

/-- The probe applied at index `i` of the sequence; out-of-range indices give
the (unreachable inside the search loop) dummy value `0`. -/
def probeAt {α : Type} (l : List α) (probe : α → Int) (i : Nat) : Int :=
  match l[i]? with
  | some a => probe a
  | none => 0

/-- Modelled from the spec: the narrowing loop of the Ordered Search
(`src/BinarySearch.ts` is not under `src/`; §4.1 of the specification is the
authority).  At each midpoint, `probe < 0` narrows the upper bound to `mid`,
`probe > 0` moves the lower bound to `mid + 1`, `probe == 0` returns `mid`;
the loop terminates when the bounds meet, returning that bound.  The `fuel`
argument makes the recursion structural; each iteration shrinks `hi - lo`, so
any fuel of at least `hi - lo` (the caller passes the sequence length) gives
the loop's semantics. -/
def bsLoop {α : Type} (l : List α) (probe : α → Int) : Nat → Nat → Nat → Nat
  | 0, lo, _ => lo
  | fuel + 1, lo, hi =>
    if lo < hi then
      if probeAt l probe ((lo + hi) / 2) < 0 then bsLoop l probe fuel lo ((lo + hi) / 2)
      else if 0 < probeAt l probe ((lo + hi) / 2) then
        bsLoop l probe fuel ((lo + hi) / 2 + 1) hi
      else (lo + hi) / 2
    else lo

/-- Modelled from the spec: the generalized Ordered Search routine
(`src/BinarySearch.ts`, imported by `KeyedDB.ts`, is not under `src/`; this
follows §4.1 of the specification).  Edge handling evaluated before the
general loop: empty sequence → `0`; `probe(first) < 0` → `-1`;
`probe(first) == 0` → `0`; `probe(last) > 0` → `n`; `probe(last) == 0` →
`n - 1`; otherwise the classic narrowing loop `bsLoop`. -/
def binarySearch {α : Type} (l : List α) (probe : α → Int) : Int :=
  if l.length = 0 then 0
  else if probeAt l probe 0 < 0 then -1
  else if probeAt l probe 0 = 0 then 0
  else if 0 < probeAt l probe (l.length - 1) then (l.length : Int)
  else if probeAt l probe (l.length - 1) = 0 then ((l.length - 1 : Nat) : Int)
  else (bsLoop l probe l.length 0 l.length : Int)

/-- Lookup in the identity index (a JavaScript object keyed by strings,
modelled as an association list whose keys are pairwise distinct). -/
def lookupA {V : Type} (d : List (String × V)) (s : String) : Option V :=
  (d.find? (fun p => decide (p.1 = s))).map (fun p => p.2)

/-- `dict[s] = v`: replace the binding if the key is present (JavaScript
objects keep the position of an existing key), otherwise append it. -/
def dictSet {V : Type} (d : List (String × V)) (s : String) (v : V) :
    List (String × V) :=
  if d.any (fun p => decide (p.1 = s)) then
    d.map (fun p => if p.1 = s then (s, v) else p)
  else d ++ [(s, v)]

/-- `delete dict[s]`: remove the binding for `s`, if any. -/
def dictDelete {V : Type} (d : List (String × V)) (s : String) :
    List (String × V) :=
  d.eraseP (fun p => decide (p.1 = s))

/-- The state of a `KeyedDB<T, K>` instance: the two extraction functions and
the comparator fixed at construction, plus the mutable ordered sequence
(`array`) and identity index (`dict`). -/
structure KeyedDB (V K : Type) where
  key : V → K
  compare : K → K → Int
  idGetter : V → String
  array : List V
  dict : List (String × V)

namespace KeyedDB

variable {V K : Type} [DecidableEq K]

/-- A freshly constructed collection (explicit identity function). -/
def empty (key : V → K) (compare : K → K → Int) (idGetter : V → String) :
    KeyedDB V K :=
  { key := key, compare := compare, idGetter := idGetter, array := [], dict := [] }

/-- `get(id)`: dictionary lookup. -/
def get (db : KeyedDB V K) (s : String) : Option V :=
  lookupA db.dict s

/-- `all()`: the ordered sequence. -/
def all (db : KeyedDB V K) : List V :=
  db.array

/-- The elements yielded, in order, by the `Symbol.iterator` generator. -/
def iterList (db : KeyedDB V K) : List V :=
  db.array

/-- `length`. -/
def size (db : KeyedDB V K) : Nat :=
  db.array.length

/-- `firstIndex(value)`: Ordered Search for the value's key. -/
def firstIndex (db : KeyedDB V K) (value : V) : Int :=
  binarySearch db.array (fun v => db.compare (db.key value) (db.key v))

/-- `_insertSingle(value)`.  A `none` argument is a falsey value. -/
def _insertSingle (db : KeyedDB V K) (value : Option V) :
    Except DBError (KeyedDB V K) :=
  match value with
  | none => .error .invalidValue
  | some v =>
    let valueID := db.idGetter v
    match db.get valueID with
    | some _ => .error .duplicateIdentity
    | none =>
      if 0 < db.array.length then
        let index := db.firstIndex v
        if hge : (db.array.length : Int) ≤ index then
          .ok { db with array := db.array ++ [v], dict := dictSet db.dict valueID v }
        else if hneg : index < 0 then
          .ok { db with array := v :: db.array, dict := dictSet db.dict valueID v }
        else
          have hlt : index.toNat < db.array.length := by omega
          let w := db.array.get ⟨index.toNat, hlt⟩
          if db.key v ≠ db.key w then
            .ok { db with array := db.array.insertIdx index.toNat v,
                          dict := dictSet db.dict valueID v }
          else .error .duplicateKey
      else
        .ok { db with array := db.array ++ [v], dict := dictSet db.dict valueID v }

/-- `insert(...values)`: values are applied one at a time; a failure aborts
the call, keeping the insertions already performed (partial-effect
semantics).  The returned state is the collection after the call, the
returned error is the exception thrown, if any. -/
def insert (db : KeyedDB V K) : List (Option V) → KeyedDB V K × Option DBError
  | [] => (db, none)
  | v :: rest =>
    match db._insertSingle v with
    | .ok db1 => db1.insert rest
    | .error e => (db, some e)

/-- `delete(value)`: locate by key, remove from both structures.  Returns the
removed element (the element found at the computed index), or `none`. -/
def delete (db : KeyedDB V K) (value : V) : Option V × KeyedDB V K :=
  let index := db.firstIndex value
  if h : index < 0 ∨ (db.array.length : Int) ≤ index then (none, db)
  else
    have hlt : index.toNat < db.array.length := by omega
    let w := db.array.get ⟨index.toNat, hlt⟩
    if db.key value ≠ db.key w then (none, db)
    else
      (some w, { db with array := db.array.eraseIdx index.toNat,
                         dict := dictDelete db.dict (db.idGetter value) })

/-- `deleteById(id, assertPresent)`. -/
def deleteById (db : KeyedDB V K) (s : String) (assertPresent : Bool := true) :
    Except DBError (Option V × KeyedDB V K) :=
  match db.get s with
  | none => if assertPresent then .error .notFound else .ok (none, db)
  | some value => .ok (db.delete value)

/-- `upsert(...values)`: per value, delete any member with the same identity,
then insert; returns the values that replaced a pre-existing identity. -/
def upsert (db : KeyedDB V K) :
    List (Option V) → KeyedDB V K × List V × Option DBError
  | [] => (db, [], none)
  | none :: rest => db.upsert rest
  | some v :: rest =>
    match db.deleteById (db.idGetter v) false with
    | .ok (deleted, db1) =>
      match db1._insertSingle (some v) with
      | .ok db2 =>
        let r := db2.upsert rest
        (r.1, (if deleted.isSome then [v] else []) ++ r.2.1, r.2.2)
      | .error e => (db1, [], some e)
    | .error e => (db, [], some e)

/-- `insertIfAbsent(...values)`: skip a value whose identity or key is
already present, insert the rest; returns the values actually inserted. -/
def insertIfAbsent (db : KeyedDB V K) :
    List (Option V) → KeyedDB V K × List V × Option DBError
  | [] => (db, [], none)
  | none :: rest => db.insertIfAbsent rest
  | some v :: rest =>
    match db.get (db.idGetter v) with
    | some _ => db.insertIfAbsent rest
    | none =>
      let presentKey := db.firstIndex v
      let collide : Bool :=
        match (if 0 ≤ presentKey then db.array[presentKey.toNat]? else none) with
        | some w => decide (db.key w = db.key v)
        | none => false
      if collide then db.insertIfAbsent rest
      else
        match db._insertSingle (some v) with
        | .ok db1 =>
          let r := db1.insertIfAbsent rest
          (r.1, v :: r.2.1, r.2.2)
        | .error e => (db, [], some e)

/-- `update(id, update)`: locate by identity, re-check the recorded position,
apply the mutation; reposition through the standard insert path when the key
changed (status `2`), otherwise leave the order untouched (status `1`).
Returns no status for an unknown identity. -/
def update (db : KeyedDB V K) (s : String) (change : V → V) :
    KeyedDB V K × Option Nat × Option DBError :=
  match db.get s with
  | none => (db, none, none)
  | some value =>
    let idx := db.firstIndex value
    if h : 0 ≤ idx ∧ idx.toNat < db.array.length then
      let cur := db.array.get ⟨idx.toNat, h.2⟩
      if db.idGetter cur = s then
        let oldKey := db.key value
        let newValue := change value
        let newKey := db.key newValue
        if newKey ≠ oldKey then
          let db1 : KeyedDB V K :=
            { db with array := db.array.eraseIdx idx.toNat,
                      dict := dictDelete db.dict s }
          match db1._insertSingle (some newValue) with
          | .ok db2 => (db2, some 2, none)
          | .error e => (db1, none, some e)
        else
          ({ db with array := db.array.set idx.toNat newValue,
                     dict := dictSet db.dict s newValue }, some 1, none)
      else (db, none, none)
    else (db, none, none)

/-- `clear()`. -/
def clear (db : KeyedDB V K) : KeyedDB V K :=
  { db with array := [], dict := [] }

end KeyedDB

/-- The collecting loop of `filtered` in `'after'` mode with a predicate:
walk the suffix, pushing matches (the index passed to the predicate is
`start + arr.length`, as in the source), stopping once `count` elements have
been collected. -/
def filteredAfterLoop {V : Type} (p : V → Nat → Bool) (start count : Nat) :
    List V → List V → List V
  | acc, [] => acc
  | acc, item :: rest =>
    let acc1 := if p item (start + acc.length) then acc ++ [item] else acc
    if count ≤ acc1.length then acc1 else filteredAfterLoop p start count acc1 rest

/-- The collecting loop of `filtered` in `'before'` mode with a predicate:
walk leftwards from `start - 1` (the argument list is the reversed prefix),
unshifting matches, stopping once `count` elements have been collected. -/
def filteredBeforeLoop {V : Type} (p : V → Nat → Bool) (start count : Nat) :
    List V → List V → List V
  | acc, [] => acc
  | acc, item :: rest =>
    let acc1 := if p item (start + acc.length) then item :: acc else acc
    if count ≤ acc1.length then acc1 else filteredBeforeLoop p start count acc1 rest

namespace KeyedDB

variable {V K : Type} [DecidableEq K]

/-- `filtered(start, count, mode, predicate)`. -/
def filtered (db : KeyedDB V K) (start count : Nat) (mode : PaginationMode)
    (predicate : Option (V → Nat → Bool)) : List V :=
  match mode with
  | .after =>
    match predicate with
    | some p => filteredAfterLoop p start count [] (db.array.drop start)
    | none => (db.array.drop start).take count
  | .before =>
    match predicate with
    | some p => filteredBeforeLoop p start count [] (db.array.take start).reverse
    | none => (db.array.take start).drop (start - count)

/-- `paginated(cursor, limit, predicate, mode)`.  With a present cursor the
source evaluates `this.key.key(this.array[index])` without an upper bounds
check; the `none` result models the `TypeError` raised when that access is
out of range. -/
def paginated (db : KeyedDB V K) (cursor : Option K) (limit : Nat)
    (predicate : Option (V → Nat → Bool) := none)
    (mode : PaginationMode := .after) : Option (List V) :=
  match cursor with
  | none =>
    some (db.filtered (match mode with | .after => 0 | .before => db.array.length)
            limit mode predicate)
  | some c =>
    let i0 := binarySearch db.array (fun v => db.compare c (db.key v))
    let i1 := if i0 < 0 then 0 else i0
    match db.array[i1.toNat]? with
    | none => none
    | some w =>
      let idx :=
        if db.key w = c then
          (match mode with | .after => i1.toNat + 1 | .before => i1.toNat)
        else i1.toNat
      some (db.filtered idx limit mode predicate)

/-- `paginatedByValue(value, limit, predicate, mode)`. -/
def paginatedByValue (db : KeyedDB V K) (value : Option V) (limit : Nat)
    (predicate : Option (V → Nat → Bool) := none)
    (mode : PaginationMode := .after) : Option (List V) :=
  db.paginated (value.map db.key) limit predicate mode

/-- Invariant 1 of the data model: the ordered sequence is sorted strictly
ascending under `compare` applied to extracted keys (strictness subsumes
invariant 2, pairwise-distinct keys). -/
def SortedC (db : KeyedDB V K) : Prop :=
  db.array.Pairwise (fun a b => db.compare (db.key a) (db.key b) < 0)

/-- Invariant 4: the identity index holds exactly the members of the ordered
sequence, each under its identity. -/
def DictOK [DecidableEq V] (db : KeyedDB V K) : Prop :=
  db.dict.Perm (db.array.map (fun v => (db.idGetter v, v)))

/-- Invariant 3: identities are pairwise distinct across members. -/
def NodupIds (db : KeyedDB V K) : Prop :=
  (db.array.map db.idGetter).Nodup

/-- The conjunction of the data-model invariants. -/
def Inv [DecidableEq V] (db : KeyedDB V K) : Prop :=
  db.SortedC ∧ db.DictOK ∧ db.NodupIds

/-- Number of members whose key is strictly below `k` (under `compare`). -/
def cntLt (db : KeyedDB V K) (k : K) : Nat :=
  db.array.countP (fun v => decide (0 < db.compare k (db.key v)))

/-- Number of members whose key is below or equal to `k` (under `compare`). -/
def cntLe (db : KeyedDB V K) (k : K) : Nat :=
  db.array.countP (fun v => decide (0 ≤ db.compare k (db.key v)))

/-- The forward traversal of the repository's pagination tests: call
`paginated` in `'after'` mode, then repeat with the key of the last item of
each non-empty page, stopping at an empty page (or when out of fuel). -/
def afterPages (db : KeyedDB V K) (q : V → Bool) (limit : Nat) :
    Nat → Option K → List (List V)
  | 0, _ => []
  | fuel + 1, cursor =>
    match db.paginated cursor limit (some (fun v _ => q v)) .after with
    | some (x :: xs) =>
      (x :: xs) :: db.afterPages q limit fuel
        (some (db.key ((x :: xs).getLast (List.cons_ne_nil x xs))))
    | _ => []

/-- The backward traversal: call `paginated` in `'before'` mode, then repeat
with the key of the first item of each non-empty page. -/
def beforePages (db : KeyedDB V K) (q : V → Bool) (limit : Nat) :
    Nat → Option K → List (List V)
  | 0, _ => []
  | fuel + 1, cursor =>
    match db.paginated cursor limit (some (fun v _ => q v)) .before with
    | some (x :: xs) => (x :: xs) :: db.beforePages q limit fuel (some (db.key x))
    | _ => []

end KeyedDB

/-- A comparator realises a total order: negative exactly on ascending pairs,
zero exactly on equal keys (the specification's "total order, must be
consistent and transitive"). -/
def LawfulCompare {K : Type} [LinearOrder K] (compare : K → K → Int) : Prop :=
  ∀ a b : K, (compare a b < 0 ↔ a < b) ∧ (compare a b = 0 ↔ a = b)

/-- Integer subtraction, the comparator used throughout the repository's own
tests (`compare: (a, b) => a-b`). -/
def intCmp : Int → Int → Int := fun a b => a - b

/-- A concrete collection over `(key, identity)` pairs, built through the
public `insert` path from an empty collection. -/
def pairDB (l : List (Int × String)) : KeyedDB (Int × String) Int :=
  ((KeyedDB.empty Prod.fst intCmp Prod.snd).insert (l.map some)).1

/-- The last `n` elements of a list, in order. -/
def rtake {β : Type} (l : List β) (n : Nat) : List β :=
  (l.reverse.take n).reverse

/-- The list with its last `n` elements removed. -/
def rdrop {β : Type} (l : List β) (n : Nat) : List β :=
  l.take (l.length - n)

/-- Successive blocks of `limit` elements, front to back. -/
def chunks {β : Type} (limit : Nat) (l : List β) : List (List β) :=
  if h : limit = 0 ∨ l.length = 0 then []
  else l.take limit :: chunks limit (l.drop limit)
termination_by l.length
decreasing_by
  simp only [List.length_drop]
  omega

/-- Successive blocks of `limit` elements, back to front. -/
def rchunks {β : Type} (limit : Nat) (l : List β) : List (List β) :=
  if h : limit = 0 ∨ l.length = 0 then []
  else rtake l limit :: rchunks limit (rdrop l limit)
termination_by l.length
decreasing_by
  simp only [rdrop, List.length_take]
  omega

/-- The probe values are monotonically falling in sign along the sequence
(the probe is consistent with the sequence's sort order): a negative probe
stays negative to the right, a positive probe stays positive to the left. -/
def SignMono {α : Type} (l : List α) (probe : α → Int) : Prop :=
  ∀ j, j < l.length → ∀ i, i < j →
    (probeAt l probe i < 0 → probeAt l probe j < 0) ∧
    (0 < probeAt l probe j → 0 < probeAt l probe i)

instance {α : Type} (l : List α) (probe : α → Int) : Decidable (SignMono l probe) := by
  unfold SignMono; infer_instance

instance {V K : Type} (db : KeyedDB V K) : Decidable db.SortedC := by
  unfold KeyedDB.SortedC; infer_instance

instance {V K : Type} [DecidableEq V] (db : KeyedDB V K) : Decidable db.DictOK := by
  unfold KeyedDB.DictOK; infer_instance

instance {V K : Type} (db : KeyedDB V K) : Decidable db.NodupIds := by
  unfold KeyedDB.NodupIds; infer_instance

instance {V K : Type} [DecidableEq V] (db : KeyedDB V K) : Decidable db.Inv := by
  unfold KeyedDB.Inv; infer_instance

section BinarySearchTheory

variable {α : Type}

theorem probeAt_eq_get (l : List α) (probe : α → Int) (i : Nat) (h : i < l.length) :
    probeAt l probe i = probe (l.get ⟨i, h⟩) := by
  simp [probeAt, List.getElem?_eq_getElem h]

theorem probeAt_of_len_le (l : List α) (probe : α → Int) (i : Nat)
    (h : l.length ≤ i) : probeAt l probe i = 0 := by
  simp [probeAt, List.getElem?_eq_none h]

/-- Full behaviour of the narrowing loop on a sign-monotone probe: starting
from bounds whose outside is already classified, it returns either an index
probing zero or the sign boundary of the whole sequence. -/
theorem bsLoop_spec (l : List α) (probe : α → Int) (hmono : SignMono l probe) :
    ∀ (fuel lo hi : Nat), hi - lo ≤ fuel → lo ≤ hi → hi ≤ l.length →
      (∀ i, i < lo → 0 < probeAt l probe i) →
      (∀ i, hi ≤ i → i < l.length → probeAt l probe i < 0) →
      (lo ≤ bsLoop l probe fuel lo hi ∧ bsLoop l probe fuel lo hi ≤ hi) ∧
        ((bsLoop l probe fuel lo hi < hi ∧
            probeAt l probe (bsLoop l probe fuel lo hi) = 0) ∨
          ((∀ i, i < bsLoop l probe fuel lo hi → 0 < probeAt l probe i) ∧
            (∀ i, bsLoop l probe fuel lo hi ≤ i → i < l.length →
              probeAt l probe i < 0))) := by
  intro fuel
  induction fuel with
  | zero =>
    intro lo hi hn hle hhi hlow hhigh
    simp only [bsLoop]
    have hlohi : hi = lo := by omega
    exact ⟨⟨le_refl lo, hle⟩, Or.inr ⟨hlow, fun i h1 h2 => hhigh i (by omega) h2⟩⟩
  | succ fuel ih =>
    intro lo hi hn hle hhi hlow hhigh
    by_cases hlt : lo < hi
    · have hmidhi : (lo + hi) / 2 < hi := by omega
      have hmidlo : lo ≤ (lo + hi) / 2 := by omega
      have hmidlen : (lo + hi) / 2 < l.length := by omega
      rcases lt_trichotomy (probeAt l probe ((lo + hi) / 2)) 0 with hc | hc | hc
      · have hstep : bsLoop l probe (fuel + 1) lo hi =
            bsLoop l probe fuel lo ((lo + hi) / 2) := by
          simp only [bsLoop]
          rw [if_pos hlt, if_pos hc]
        rw [hstep]
        have hres := ih lo ((lo + hi) / 2) (by omega) hmidlo (by omega) hlow ?_
        · exact ⟨⟨hres.1.1, le_trans hres.1.2 (le_of_lt hmidhi)⟩,
            hres.2.elim (fun hz => Or.inl ⟨lt_of_lt_of_le hz.1 (by omega), hz.2⟩) Or.inr⟩
        · intro i h1 h2
          rcases eq_or_lt_of_le h1 with he | hlt2
          · rw [← he]; exact hc
          · exact (hmono i h2 ((lo + hi) / 2) hlt2).1 hc
      · have hstep : bsLoop l probe (fuel + 1) lo hi = (lo + hi) / 2 := by
          simp only [bsLoop]
          rw [if_pos hlt, if_neg (by omega), if_neg (by omega)]
        rw [hstep]
        exact ⟨⟨hmidlo, le_of_lt hmidhi⟩, Or.inl ⟨hmidhi, hc⟩⟩
      · have hstep : bsLoop l probe (fuel + 1) lo hi =
            bsLoop l probe fuel ((lo + hi) / 2 + 1) hi := by
          simp only [bsLoop]
          rw [if_pos hlt, if_neg (by omega), if_pos hc]
        rw [hstep]
        have hres := ih ((lo + hi) / 2 + 1) hi (by omega) (by omega) hhi ?_ hhigh
        · exact ⟨⟨by omega, hres.1.2⟩, hres.2⟩
        · intro i h1
          rcases Nat.lt_succ_iff_lt_or_eq.mp h1 with h2 | h2
          · exact (hmono ((lo + hi) / 2) hmidlen i h2).2 hc
          · rw [h2]; exact hc
    · have hstep : bsLoop l probe (fuel + 1) lo hi = lo := by
        simp only [bsLoop]
        rw [if_neg hlt]
      rw [hstep]
      refine ⟨⟨le_refl lo, hle⟩, Or.inr ⟨hlow, fun i h1 h2 => hhigh i (by omega) h2⟩⟩

theorem binarySearch_nil (probe : α → Int) : binarySearch ([] : List α) probe = 0 := by
  simp [binarySearch]

theorem binarySearch_neg_first (l : List α) (probe : α → Int) (h0 : 0 < l.length)
    (h : probeAt l probe 0 < 0) : binarySearch l probe = -1 := by
  unfold binarySearch
  rw [if_neg (by omega), if_pos h]

theorem binarySearch_zero_first (l : List α) (probe : α → Int) (h0 : 0 < l.length)
    (h : probeAt l probe 0 = 0) : binarySearch l probe = 0 := by
  unfold binarySearch
  rw [if_neg (by omega), if_neg (by omega), if_pos h]

theorem binarySearch_all_pos (l : List α) (probe : α → Int)
    (h : ∀ i, i < l.length → 0 < probeAt l probe i) :
    binarySearch l probe = l.length := by
  by_cases h0 : l.length = 0
  · unfold binarySearch
    rw [if_pos h0, h0]
    rfl
  · have hf := h 0 (by omega)
    have hl := h (l.length - 1) (by omega)
    unfold binarySearch
    rw [if_neg h0, if_neg (by omega), if_neg (by omega), if_pos hl]

theorem binarySearch_pos_last (l : List α) (probe : α → Int) (hmono : SignMono l probe)
    (h0 : 0 < l.length) (h : 0 < probeAt l probe (l.length - 1)) :
    binarySearch l probe = l.length := by
  refine binarySearch_all_pos l probe (fun i hi => ?_)
  by_cases hil : i < l.length - 1
  · exact (hmono (l.length - 1) (by omega) i hil).2 h
  · have : i = l.length - 1 := by omega
    rw [this]; exact h

/-- If some index probes zero, the search returns an index probing zero. -/
theorem binarySearch_match (l : List α) (probe : α → Int) (hmono : SignMono l probe)
    (i : Nat) (hi : i < l.length) (hz : probeAt l probe i = 0) :
    ∃ j : Nat, binarySearch l probe = (j : Int) ∧ j < l.length ∧
      probeAt l probe j = 0 := by
  have h0 : 0 < l.length := by omega
  by_cases hf : probeAt l probe 0 < 0
  · exfalso
    rcases Nat.eq_zero_or_pos i with rfl | hipos
    · omega
    · have := (hmono i hi 0 hipos).1 hf
      omega
  · by_cases hf0 : probeAt l probe 0 = 0
    · exact ⟨0, by rw [binarySearch_zero_first l probe h0 hf0]; rfl, h0, hf0⟩
    · by_cases hl : 0 < probeAt l probe (l.length - 1)
      · exfalso
        by_cases hil : i < l.length - 1
        · have := (hmono (l.length - 1) (by omega) i hil).2 hl
          omega
        · have he : i = l.length - 1 := by omega
          rw [he] at hz
          omega
      · by_cases hl0 : probeAt l probe (l.length - 1) = 0
        · refine ⟨l.length - 1, ?_, by omega, hl0⟩
          unfold binarySearch
          rw [if_neg (by omega), if_neg hf, if_neg hf0, if_neg hl, if_pos hl0]
        · have hres := bsLoop_spec l probe hmono l.length 0 l.length (by omega) (by omega)
            le_rfl (by intro i h; omega) (by intro i h1 h2; omega)
          rcases hres.2 with ⟨hlt, hz2⟩ | ⟨hb1, hb2⟩
          · refine ⟨bsLoop l probe l.length 0 l.length, ?_, hlt, hz2⟩
            unfold binarySearch
            rw [if_neg (by omega), if_neg hf, if_neg hf0, if_neg hl, if_neg hl0]
          · exfalso
            rcases lt_or_ge i (bsLoop l probe l.length 0 l.length) with h | h
            · have := hb1 i h
              omega
            · have := hb2 i h hi
              omega

/-- With no zero anywhere and an interior sign change, the search returns the
boundary: the index of the first element probing negative. -/
theorem binarySearch_boundary (l : List α) (probe : α → Int) (hmono : SignMono l probe)
    (hnz : ∀ i, i < l.length → probeAt l probe i ≠ 0)
    (hf : 0 < probeAt l probe 0) (hl : probeAt l probe (l.length - 1) < 0) :
    ∃ j : Nat, binarySearch l probe = (j : Int) ∧ 0 < j ∧ j < l.length ∧
      (∀ i, i < j → 0 < probeAt l probe i) ∧
      (∀ i, j ≤ i → i < l.length → probeAt l probe i < 0) := by
  have h0 : 0 < l.length := by
    by_contra h
    rw [probeAt_of_len_le l probe 0 (by omega)] at hf
    omega
  have hres := bsLoop_spec l probe hmono l.length 0 l.length (by omega) (by omega)
    le_rfl (by intro i h; omega) (by intro i h1 h2; omega)
  rcases hres.2 with ⟨hlt, hz⟩ | ⟨hb1, hb2⟩
  · exact absurd hz (hnz _ hlt)
  · refine ⟨bsLoop l probe l.length 0 l.length, ?_, ?_, ?_, hb1, hb2⟩
    · unfold binarySearch
      rw [if_neg (by omega), if_neg (by omega), if_neg (by omega), if_neg (by omega),
        if_neg (by omega)]
    · by_contra h
      have := hb2 0 (by omega) h0
      omega
    · by_contra h
      have := hb1 (l.length - 1) (by omega)
      omega

end BinarySearchTheory

section DictTheory

variable {V : Type}

theorem lookupA_eq_none_iff (d : List (String × V)) (s : String) :
    lookupA d s = none ↔ ∀ p ∈ d, p.1 ≠ s := by
  simp [lookupA, List.find?_eq_none]

theorem assoc_entry_unique (d : List (String × V)) (hn : (d.map Prod.fst).Nodup) :
    ∀ a ∈ d, ∀ b ∈ d, a.1 = b.1 → a = b := by
  induction d with
  | nil => simp
  | cons p t ih =>
    simp only [List.map_cons, List.nodup_cons] at hn
    intro a ha b hb hab
    rcases List.mem_cons.mp ha with ha1 | ha2
    · rcases List.mem_cons.mp hb with hb1 | hb2
      · rw [ha1, hb1]
      · exfalso
        apply hn.1
        have : b.1 ∈ List.map Prod.fst t := List.mem_map.mpr ⟨b, hb2, rfl⟩
        rw [← hab, ha1] at this
        exact this
    · rcases List.mem_cons.mp hb with hb1 | hb2
      · exfalso
        apply hn.1
        have : a.1 ∈ List.map Prod.fst t := List.mem_map.mpr ⟨a, ha2, rfl⟩
        rw [hab, hb1] at this
        exact this
      · exact ih hn.2 a ha2 b hb2 hab

theorem lookupA_eq_some_iff (d : List (String × V)) (hn : (d.map Prod.fst).Nodup)
    (s : String) (v : V) : lookupA d s = some v ↔ (s, v) ∈ d := by
  constructor
  · intro h
    rcases hf : d.find? (fun p => decide (p.1 = s)) with _ | q
    · simp [lookupA, hf] at h
    · have hq' := List.find?_some hf
      have hq1 : q.1 = s := of_decide_eq_true hq'
      have hqd := List.mem_of_find?_eq_some hf
      simp only [lookupA, hf, Option.map_some'] at h
      have : q = (s, v) := by
        cases q
        simp_all
      exact this ▸ hqd
  · intro h
    rcases hf : d.find? (fun p => decide (p.1 = s)) with _ | q
    · rw [List.find?_eq_none] at hf
      exact absurd (by simp) (hf _ h)
    · have hq' := List.find?_some hf
      have hq1 : q.1 = s := of_decide_eq_true hq'
      have hqd := List.mem_of_find?_eq_some hf
      have : q = (s, v) := assoc_entry_unique d hn q hqd (s, v) h (by rw [hq1])
      simp [lookupA, hf, this]

end DictTheory

section ListHelpers

variable {β : Type}

theorem mem_take_iff_get (l : List β) (j : Nat) (a : β) :
    a ∈ l.take j ↔ ∃ i, ∃ h : i < l.length, i < j ∧ l.get ⟨i, h⟩ = a := by
  rw [List.mem_iff_getElem]
  constructor
  · rintro ⟨i, hi, he⟩
    have hlen := hi
    rw [List.length_take] at hlen
    rw [List.getElem_take] at he
    exact ⟨i, by omega, by omega, by simpa [List.get_eq_getElem] using he⟩
  · rintro ⟨i, h, hij, he⟩
    refine ⟨i, ?_, ?_⟩
    · rw [List.length_take]
      omega
    · rw [List.getElem_take]
      simpa [List.get_eq_getElem] using he

theorem mem_drop_iff_get (l : List β) (j : Nat) (a : β) :
    a ∈ l.drop j ↔ ∃ i, ∃ h : i < l.length, j ≤ i ∧ l.get ⟨i, h⟩ = a := by
  rw [List.mem_iff_getElem]
  constructor
  · rintro ⟨i, hi, he⟩
    have hlen := hi
    rw [List.length_drop] at hlen
    rw [List.getElem_drop] at he
    exact ⟨j + i, by omega, by omega, by simpa [List.get_eq_getElem] using he⟩
  · rintro ⟨i, h, hij, he⟩
    refine ⟨i - j, ?_, ?_⟩
    · rw [List.length_drop]
      omega
    · rw [List.getElem_drop]
      have : j + (i - j) = i := by omega
      simp only [this]
      simpa [List.get_eq_getElem] using he

theorem countP_eq_of_boundary (l : List β) (p : β → Bool) (i : Nat) (hi : i ≤ l.length)
    (h1 : ∀ a ∈ l.take i, p a = true) (h2 : ∀ a ∈ l.drop i, p a = false) :
    l.countP p = i := by
  conv_lhs => rw [← List.take_append_drop i l]
  rw [List.countP_append]
  have e1 : (l.take i).countP p = i := by
    rw [List.countP_eq_length.mpr h1, List.length_take]
    omega
  have e2 : (l.drop i).countP p = 0 := by
    rw [List.countP_eq_zero]
    intro a ha
    rw [h2 a ha]
    simp
  omega

theorem pairwise_downclosed_split (l : List β) (p : β → Bool)
    (hdc : l.Pairwise (fun a b => p b = true → p a = true)) :
    (∀ a ∈ l.take (l.countP p), p a = true) ∧
      (∀ a ∈ l.drop (l.countP p), p a = false) := by
  induction l with
  | nil => simp
  | cons x t ih =>
    rw [List.pairwise_cons] at hdc
    by_cases hpx : p x = true
    · rw [List.countP_cons_of_pos _ _ (by simpa using hpx)]
      constructor
      · intro a ha
        rw [List.take_succ_cons] at ha
        rcases List.mem_cons.mp ha with rfl | ha
        · exact hpx
        · exact (ih hdc.2).1 a ha
      · intro a ha
        rw [List.drop_succ_cons] at ha
        exact (ih hdc.2).2 a ha
    · have hc0 : t.countP p = 0 := by
        rw [List.countP_eq_zero]
        exact fun a ha hpa => hpx (hdc.1 a ha hpa)
      rw [List.countP_cons_of_neg _ _ (by simpa using hpx), hc0]
      refine ⟨by simp, ?_⟩
      intro a ha
      rw [List.drop_zero] at ha
      rcases List.mem_cons.mp ha with rfl | ha
      · simpa using hpx
      · have := List.countP_eq_zero.mp hc0 a ha
        simpa using this

theorem take_countP_eq_filter (l : List β) (p : β → Bool)
    (hdc : l.Pairwise (fun a b => p b = true → p a = true)) :
    l.take (l.countP p) = l.filter p := by
  obtain ⟨h1, h2⟩ := pairwise_downclosed_split l p hdc
  conv_rhs => rw [← List.take_append_drop (l.countP p) l]
  rw [List.filter_append, List.filter_eq_self.mpr h1,
    List.filter_eq_nil.mpr (fun a ha => by rw [h2 a ha]; simp), List.append_nil]

theorem drop_countP_eq_filter_not (l : List β) (p : β → Bool)
    (hdc : l.Pairwise (fun a b => p b = true → p a = true)) :
    l.drop (l.countP p) = l.filter (fun a => ! p a) := by
  obtain ⟨h1, h2⟩ := pairwise_downclosed_split l p hdc
  conv_rhs => rw [← List.take_append_drop (l.countP p) l]
  rw [List.filter_append, List.filter_eq_nil.mpr (fun a ha => by rw [h1 a ha]; simp),
    List.filter_eq_self.mpr (fun a ha => by rw [h2 a ha]; simp), List.nil_append]

end ListHelpers

section SortedTheory

variable {V K : Type} [DecidableEq K] [LinearOrder K]

theorem lawful_pos {cmp : K → K → Int} (hc : LawfulCompare cmp) (a b : K) :
    0 < cmp a b ↔ b < a := by
  constructor
  · intro h
    rcases lt_trichotomy b a with h1 | h1 | h1
    · exact h1
    · exfalso
      rw [(hc a b).2.mpr h1.symm] at h
      omega
    · exfalso
      have := (hc a b).1.mpr h1
      omega
  · intro h
    rcases lt_trichotomy (cmp a b) 0 with h1 | h1 | h1
    · exact absurd ((hc a b).1.mp h1) (lt_asymm h)
    · exfalso
      rw [(hc a b).2.mp h1] at h
      exact lt_irrefl b h
    · exact h1

theorem lawful_refl {cmp : K → K → Int} (hc : LawfulCompare cmp) (a : K) :
    cmp a a = 0 :=
  (hc a a).2.mpr rfl

theorem sortedC_keys {db : KeyedDB V K} (hc : LawfulCompare db.compare)
    (hs : db.SortedC) : db.array.Pairwise (fun a b => db.key a < db.key b) :=
  hs.imp (fun h => (hc _ _).1.mp h)

theorem sortedC_of_keys {db : KeyedDB V K} (hc : LawfulCompare db.compare)
    (hs : db.array.Pairwise (fun a b => db.key a < db.key b)) : db.SortedC :=
  hs.imp (fun h => (hc _ _).1.mpr h)

theorem key_lt_of_index {db : KeyedDB V K} (hc : LawfulCompare db.compare)
    (hs : db.SortedC) {i j : Nat} (hij : i < j) (hj : j < db.array.length) :
    db.key (db.array.get ⟨i, lt_trans hij hj⟩) < db.key (db.array.get ⟨j, hj⟩) := by
  have h := List.pairwise_iff_getElem.mp (sortedC_keys hc hs) i j
    (lt_trans hij hj) hj hij
  simpa [List.get_eq_getElem] using h

theorem signMono_probe {db : KeyedDB V K} (hc : LawfulCompare db.compare)
    (hs : db.SortedC) (k : K) :
    SignMono db.array (fun v => db.compare k (db.key v)) := by
  intro j hj i hij
  have hi : i < db.array.length := lt_trans hij hj
  rw [probeAt_eq_get _ _ _ hi, probeAt_eq_get _ _ _ hj]
  have hk := key_lt_of_index hc hs hij hj
  constructor
  · intro h
    exact (hc k _).1.mpr (lt_trans ((hc k _).1.mp h) hk)
  · intro h
    exact (lawful_pos hc k _).mpr (lt_trans hk ((lawful_pos hc k _).mp h))

theorem cntLt_eq_countP_keys {db : KeyedDB V K} (hc : LawfulCompare db.compare)
    (k : K) : db.cntLt k = db.array.countP (fun v => decide (db.key v < k)) := by
  apply List.countP_congr
  intro a ha
  simp only [decide_eq_true_eq]
  exact lawful_pos hc k (db.key a)

theorem cntLe_eq_countP_keys {db : KeyedDB V K} (hc : LawfulCompare db.compare)
    (k : K) : db.cntLe k = db.array.countP (fun v => decide (db.key v ≤ k)) := by
  apply List.countP_congr
  intro a ha
  simp only [decide_eq_true_eq]
  constructor
  · intro h
    by_contra hcon
    have := (hc k (db.key a)).1.mpr (lt_of_not_le hcon)
    omega
  · intro h
    rcases lt_or_eq_of_le h with h1 | h1
    · have := (lawful_pos hc k (db.key a)).mpr h1
      omega
    · have := (hc k (db.key a)).2.mpr h1.symm
      omega

theorem dc_key_le {db : KeyedDB V K} (hc : LawfulCompare db.compare)
    (hs : db.SortedC) (k : K) :
    db.array.Pairwise (fun a b =>
      decide (db.key b ≤ k) = true → decide (db.key a ≤ k) = true) := by
  refine (sortedC_keys hc hs).imp (fun hab h => ?_)
  simp only [decide_eq_true_eq] at h ⊢
  exact le_of_lt (lt_of_lt_of_le hab h)

theorem dc_key_lt {db : KeyedDB V K} (hc : LawfulCompare db.compare)
    (hs : db.SortedC) (k : K) :
    db.array.Pairwise (fun a b =>
      decide (db.key b < k) = true → decide (db.key a < k) = true) := by
  refine (sortedC_keys hc hs).imp (fun hab h => ?_)
  simp only [decide_eq_true_eq] at h ⊢
  exact lt_trans hab h

theorem drop_cntLe_eq {db : KeyedDB V K} (hc : LawfulCompare db.compare)
    (hs : db.SortedC) (k : K) :
    db.array.drop (db.cntLe k) =
      db.array.filter (fun v => decide (db.compare k (db.key v) < 0)) := by
  rw [cntLe_eq_countP_keys hc, drop_countP_eq_filter_not _ _ (dc_key_le hc hs k)]
  apply List.filter_congr
  intro a ha
  rw [← decide_not, decide_eq_decide, not_le]
  constructor
  · intro h
    exact (hc k (db.key a)).1.mpr h
  · intro h
    exact (hc k (db.key a)).1.mp h

theorem take_cntLt_eq {db : KeyedDB V K} (hc : LawfulCompare db.compare)
    (hs : db.SortedC) (k : K) :
    db.array.take (db.cntLt k) =
      db.array.filter (fun v => decide (db.key v < k)) := by
  rw [cntLt_eq_countP_keys hc]
  exact take_countP_eq_filter _ _ (dc_key_lt hc hs k)

theorem cntLt_key_at {db : KeyedDB V K} (hc : LawfulCompare db.compare)
    (hs : db.SortedC) (i : Nat) (h : i < db.array.length) :
    db.cntLt (db.key (db.array.get ⟨i, h⟩)) = i := by
  rw [cntLt_eq_countP_keys hc]
  apply countP_eq_of_boundary _ _ i (le_of_lt h)
  · intro a ha
    obtain ⟨j, hj, hji, he⟩ := (mem_take_iff_get _ _ _).mp ha
    simp only [← he, decide_eq_true_eq]
    exact key_lt_of_index hc hs hji h
  · intro a ha
    obtain ⟨j, hj, hij, he⟩ := (mem_drop_iff_get _ _ _).mp ha
    simp only [← he, decide_eq_false_iff_not]
    intro hcon
    rcases eq_or_lt_of_le hij with he2 | hlt2
    · subst he2
      exact lt_irrefl _ hcon
    · exact absurd (key_lt_of_index hc hs hlt2 hj) (lt_asymm hcon)

theorem cntLe_key_at {db : KeyedDB V K} (hc : LawfulCompare db.compare)
    (hs : db.SortedC) (i : Nat) (h : i < db.array.length) :
    db.cntLe (db.key (db.array.get ⟨i, h⟩)) = i + 1 := by
  rw [cntLe_eq_countP_keys hc]
  apply countP_eq_of_boundary _ _ (i + 1) (by omega)
  · intro a ha
    obtain ⟨j, hj, hji, he⟩ := (mem_take_iff_get _ _ _).mp ha
    simp only [← he, decide_eq_true_eq]
    rcases Nat.lt_succ_iff_lt_or_eq.mp hji with h1 | h1
    · exact le_of_lt (key_lt_of_index hc hs h1 h)
    · subst h1
      exact le_refl _
  · intro a ha
    obtain ⟨j, hj, hij, he⟩ := (mem_drop_iff_get _ _ _).mp ha
    simp only [← he, decide_eq_false_iff_not, not_le]
    exact key_lt_of_index hc hs (by omega) hj

theorem cntLt_le_length {db : KeyedDB V K} (k : K) :
    db.cntLt k ≤ db.array.length :=
  List.countP_le_length _

/-- The search for the key of the member at index `i` returns exactly `i`. -/
theorem bs_key_at {db : KeyedDB V K} (hc : LawfulCompare db.compare)
    (hs : db.SortedC) (i : Nat) (h : i < db.array.length) :
    binarySearch db.array
      (fun v => db.compare (db.key (db.array.get ⟨i, h⟩)) (db.key v)) = (i : Int) := by
  have hz : probeAt db.array
      (fun v => db.compare (db.key (db.array.get ⟨i, h⟩)) (db.key v)) i = 0 := by
    rw [probeAt_eq_get _ _ _ h]
    exact lawful_refl hc _
  obtain ⟨j, hj, hjlen, hz2⟩ := binarySearch_match _ _
    (signMono_probe hc hs (db.key (db.array.get ⟨i, h⟩))) i h hz
  rw [probeAt_eq_get _ _ _ hjlen] at hz2
  have hkey : db.key (db.array.get ⟨j, hjlen⟩) = db.key (db.array.get ⟨i, h⟩) :=
    ((hc _ _).2.mp hz2).symm
  have hij : j = i := by
    rcases lt_trichotomy j i with h1 | h1 | h1
    · exact absurd (hkey ▸ key_lt_of_index hc hs h1 h) (lt_irrefl _)
    · exact h1
    · exact absurd (hkey ▸ key_lt_of_index hc hs h1 hjlen) (lt_irrefl _)
  rw [hj, hij]

/-- The search for an absent key returns `-1` or the count of smaller keys. -/
theorem bs_absent {db : KeyedDB V K} (hc : LawfulCompare db.compare)
    (hs : db.SortedC) (k : K) (habs : ∀ m ∈ db.array, db.key m ≠ k) :
    binarySearch db.array (fun v => db.compare k (db.key v)) =
      if db.array.length = 0 then 0
      else if db.cntLt k = 0 then -1
      else (db.cntLt k : Int) := by
  by_cases h0 : db.array.length = 0
  · rw [if_pos h0, List.length_eq_zero.mp h0]
    exact binarySearch_nil _
  · rw [if_neg h0]
    have h0' : 0 < db.array.length := by omega
    have hnz : ∀ i, i < db.array.length →
        probeAt db.array (fun v => db.compare k (db.key v)) i ≠ 0 := by
      intro i hi hz
      rw [probeAt_eq_get _ _ _ hi] at hz
      exact habs _ (List.get_mem db.array i hi) (((hc _ _).2.mp hz).symm)
    rcases lt_trichotomy (probeAt db.array (fun v => db.compare k (db.key v)) 0) 0
      with hf | hf | hf
    · have hcnt : db.cntLt k = 0 := by
        rw [cntLt_eq_countP_keys hc, List.countP_eq_zero]
        intro a ha
        simp only [decide_eq_true_eq, not_lt]
        obtain ⟨j, hj, he⟩ := List.mem_iff_getElem.mp ha
        rw [probeAt_eq_get _ _ _ h0'] at hf
        have hk0 : k < db.key (db.array.get ⟨0, h0'⟩) := (hc _ _).1.mp hf
        rcases Nat.eq_zero_or_pos j with rfl | hj0
        · rw [← he]
          exact le_of_lt (by simpa [List.get_eq_getElem] using hk0)
        · have := key_lt_of_index hc hs hj0 hj
          rw [← he]
          simp only [List.get_eq_getElem] at this hk0 ⊢
          exact le_of_lt (lt_trans hk0 this)
      rw [if_pos hcnt]
      exact binarySearch_neg_first _ _ h0' hf
    · exact absurd hf (hnz 0 h0')
    · rcases lt_trichotomy
        (probeAt db.array (fun v => db.compare k (db.key v)) (db.array.length - 1)) 0
        with hl | hl | hl
      · obtain ⟨j, hj, hjpos, hjlen, hb1, hb2⟩ := binarySearch_boundary _ _
          (signMono_probe hc hs k) hnz hf hl
        have hcnt : db.cntLt k = j := by
          apply countP_eq_of_boundary _ _ j (le_of_lt hjlen)
          · intro a ha
            obtain ⟨m, hm, hmj, he⟩ := (mem_take_iff_get _ _ _).mp ha
            have := hb1 m hmj
            rw [probeAt_eq_get _ _ _ hm] at this
            simp only [← he, decide_eq_true_eq]
            exact this
          · intro a ha
            obtain ⟨m, hm, hjm, he⟩ := (mem_drop_iff_get _ _ _).mp ha
            have := hb2 m hjm hm
            rw [probeAt_eq_get _ _ _ hm] at this
            simp only [← he, decide_eq_false_iff_not]
            omega
        rw [hcnt, if_neg (by omega), hj]
      · exact absurd hl (hnz _ (by omega))
      · have hres := binarySearch_pos_last _ _ (signMono_probe hc hs k) h0' hl
        have hcnt : db.cntLt k = db.array.length := by
          rw [KeyedDB.cntLt, List.countP_eq_length]
          intro a ha
          obtain ⟨j, hj, he⟩ := List.mem_iff_getElem.mp ha
          simp only [← he, decide_eq_true_eq]
          by_cases hjl : j < db.array.length - 1
          · have := (signMono_probe hc hs k (db.array.length - 1) (by omega) j hjl).2 hl
            rw [probeAt_eq_get _ _ _ hj] at this
            simpa [List.get_eq_getElem] using this
          · have hje : j = db.array.length - 1 := by omega
            rw [probeAt_eq_get _ _ _ (by omega : db.array.length - 1 < db.array.length)]
              at hl
            subst hje
            simpa [List.get_eq_getElem] using hl
        rw [hcnt, if_neg (by omega), hres]

end SortedTheory

section InsertTheory

variable {V K : Type} [DecidableEq V] [DecidableEq K] [LinearOrder K]

theorem dictSet_fresh (d : List (String × V)) (s : String) (v : V)
    (h : ∀ p ∈ d, p.1 ≠ s) : dictSet d s v = d ++ [(s, v)] := by
  rw [dictSet, if_neg]
  intro hcon
  simp only [List.any_eq_true, decide_eq_true_eq] at hcon
  obtain ⟨p, hp, he⟩ := hcon
  exact h p hp he

theorem insertIdx_eq_take_cons_drop (l : List V) (n : Nat) (a : V)
    (h : n ≤ l.length) : l.insertIdx n a = l.take n ++ a :: l.drop n := by
  induction n generalizing l with
  | zero => simp
  | succ n ihn =>
    cases l with
    | nil => simp at h
    | cons x t =>
      rw [List.insertIdx_succ_cons, List.take_succ_cons, List.drop_succ_cons,
        ihn t (by simpa using h)]
      rfl

/-- Inserting a value with fresh key and fresh identity succeeds and places
it at the index given by the count of smaller keys, appending the identity
binding. -/
theorem insertSingle_ok {db : KeyedDB V K} (hc : LawfulCompare db.compare)
    (hs : db.SortedC) (v : V)
    (hid : db.get (db.idGetter v) = none)
    (hkey : ∀ m ∈ db.array, db.key m ≠ db.key v) :
    db._insertSingle (some v) =
      .ok { db with array := db.array.insertIdx (db.cntLt (db.key v)) v,
                    dict := db.dict ++ [(db.idGetter v, v)] } := by
  have hfresh := (lookupA_eq_none_iff _ _).mp hid
  have hset : dictSet db.dict (db.idGetter v) v = db.dict ++ [(db.idGetter v, v)] :=
    dictSet_fresh _ _ _ hfresh
  simp only [KeyedDB._insertSingle, hid]
  by_cases h0 : 0 < db.array.length
  · rw [if_pos h0]
    have hbs := bs_absent hc hs (db.key v) hkey
    rw [if_neg (by omega : ¬ db.array.length = 0)] at hbs
    have hbs2 : db.firstIndex v =
        (if db.cntLt (db.key v) = 0 then -1 else (db.cntLt (db.key v) : Int)) := hbs
    by_cases hcz : db.cntLt (db.key v) = 0
    · rw [if_pos hcz] at hbs2
      rw [dif_neg (by rw [hbs2]; omega), dif_pos (by rw [hbs2]; omega)]
      rw [hset, hcz, List.insertIdx_zero]
    · rw [if_neg hcz] at hbs2
      by_cases hclen : db.cntLt (db.key v) = db.array.length
      · rw [dif_pos (by rw [hbs2, hclen])]
        rw [hset, hclen, List.insertIdx_length_self]
      · have hclt : db.cntLt (db.key v) < db.array.length :=
          lt_of_le_of_ne (cntLt_le_length _) hclen
        have htn : (db.firstIndex v).toNat = db.cntLt (db.key v) := by
          rw [hbs2]
          simp
        rw [dif_neg (by rw [hbs2]; omega), dif_neg (by rw [hbs2]; omega), if_pos, htn]
        · rw [hset]
        · intro hcon
          exact hkey _ (List.get_mem db.array _ _) hcon.symm
  · rw [if_neg h0]
    have harr : db.array = [] := List.length_eq_zero.mp (by omega)
    have hcz : db.cntLt (db.key v) = 0 := by
      simp [KeyedDB.cntLt, harr]
    rw [hset, hcz, List.insertIdx_zero, harr]
    rfl

theorem insertSingle_err_none (db : KeyedDB V K) :
    db._insertSingle none = .error .invalidValue := rfl

theorem insertSingle_err_id (db : KeyedDB V K) (v : V) (w : V)
    (h : db.get (db.idGetter v) = some w) :
    db._insertSingle (some v) = .error .duplicateIdentity := by
  simp [KeyedDB._insertSingle, h]

/-- Inserting a value whose key compares equal to a member's key (with fresh
identity) fails with `DuplicateKey`. -/
theorem insertSingle_err_key {db : KeyedDB V K} (hc : LawfulCompare db.compare)
    (hs : db.SortedC) (v : V) (hid : db.get (db.idGetter v) = none)
    (m : V) (hm : m ∈ db.array) (hkm : db.compare (db.key v) (db.key m) = 0) :
    db._insertSingle (some v) = .error .duplicateKey := by
  obtain ⟨i, hi, he⟩ := List.mem_iff_getElem.mp hm
  have he2 : db.array.get ⟨i, hi⟩ = m := by
    simpa [List.get_eq_getElem] using he
  have hkv : db.key v = db.key (db.array.get ⟨i, hi⟩) := by
    rw [he2]
    exact (hc _ _).2.mp hkm
  have hfi : db.firstIndex v = (i : Int) := by
    have hcalc : db.firstIndex v = binarySearch db.array
        (fun x => db.compare (db.key (db.array.get ⟨i, hi⟩)) (db.key x)) := by
      simp only [KeyedDB.firstIndex, hkv]
    rw [hcalc]
    exact bs_key_at hc hs i hi
  have htn : (db.firstIndex v).toNat = i := by
    rw [hfi]
    simp
  simp only [KeyedDB._insertSingle, hid]
  rw [if_pos (by omega : 0 < db.array.length)]
  rw [dif_neg (by rw [hfi]; omega), dif_neg (by rw [hfi]; omega), if_neg]
  rw [not_not, hkv]
  have hgg : ∀ (h1 : (db.firstIndex v).toNat < db.array.length),
      db.array.get ⟨(db.firstIndex v).toNat, h1⟩ = db.array.get ⟨i, hi⟩ := by
    intro h1
    simp [List.get_eq_getElem, htn]
  rw [hgg]

/-- A successful `_insertSingle` implies a present non-null value with fresh
identity and fresh key, and determines the result exactly. -/
theorem insertSingle_ok_cases {db db' : KeyedDB V K} (hc : LawfulCompare db.compare)
    (hs : db.SortedC) {ov : Option V} (h : db._insertSingle ov = .ok db') :
    ∃ v, ov = some v ∧ db.get (db.idGetter v) = none ∧
      (∀ m ∈ db.array, db.key m ≠ db.key v) ∧
      db' = { db with array := db.array.insertIdx (db.cntLt (db.key v)) v,
                      dict := db.dict ++ [(db.idGetter v, v)] } := by
  cases ov with
  | none => simp [KeyedDB._insertSingle] at h
  | some v =>
    rcases hget : db.get (db.idGetter v) with _ | w
    · by_cases hkey : ∀ m ∈ db.array, db.key m ≠ db.key v
      · refine ⟨v, rfl, hget, hkey, ?_⟩
        rw [insertSingle_ok hc hs v hget hkey] at h
        injection h with h
        exact h.symm
      · exfalso
        push_neg at hkey
        obtain ⟨m, hm, hkm⟩ := hkey
        rw [insertSingle_err_key hc hs v hget m hm ((hc _ _).2.mpr hkm.symm)] at h
        simp at h
    · rw [insertSingle_err_id db v w hget] at h
      simp at h

/-- A fresh insert preserves all data-model invariants. -/
theorem inv_insert_fresh {db : KeyedDB V K} (hc : LawfulCompare db.compare)
    (hInv : db.Inv) (v : V) (hid : db.get (db.idGetter v) = none)
    (hkey : ∀ m ∈ db.array, db.key m ≠ db.key v) :
    ({ db with array := db.array.insertIdx (db.cntLt (db.key v)) v,
               dict := db.dict ++ [(db.idGetter v, v)] } : KeyedDB V K).Inv := by
  obtain ⟨hs, hd, hn⟩ := hInv
  have hperm : (db.array.insertIdx (db.cntLt (db.key v)) v).Perm (v :: db.array) :=
    List.perm_insertIdx v db.array (cntLt_le_length _)
  have hkeys := sortedC_keys hc hs
  have hck : db.cntLt (db.key v) =
      db.array.countP (fun m => decide (db.key m < db.key v)) :=
    cntLt_eq_countP_keys hc _
  have hsplit := pairwise_downclosed_split db.array
    (fun m => decide (db.key m < db.key v)) (dc_key_lt hc hs (db.key v))
  have horig := List.pairwise_append.mp
    ((List.take_append_drop (db.cntLt (db.key v)) db.array).symm ▸ hkeys)
  have hc2 : LawfulCompare ({ db with
      array := db.array.insertIdx (db.cntLt (db.key v)) v,
      dict := db.dict ++ [(db.idGetter v, v)] } : KeyedDB V K).compare := hc
  refine ⟨?_, ?_, ?_⟩
  · apply sortedC_of_keys hc2
    show (db.array.insertIdx (db.cntLt (db.key v)) v).Pairwise
      (fun a b => db.key a < db.key b)
    rw [insertIdx_eq_take_cons_drop _ _ _ (cntLt_le_length _), List.pairwise_append]
    refine ⟨List.Pairwise.sublist (List.take_sublist _ _) hkeys, ?_, ?_⟩
    · rw [List.pairwise_cons]
      constructor
      · intro b hb
        have hb2 : b ∈ db.array := List.mem_of_mem_drop hb
        have hble := (hsplit.2 b (by rw [hck] at hb; exact hb))
        simp only [decide_eq_false_iff_not, not_lt] at hble
        exact lt_of_le_of_ne hble (fun hcon => hkey b hb2 hcon.symm)
      · exact List.Pairwise.sublist (List.drop_sublist _ _) hkeys
    · intro a ha b hb
      have hap := hsplit.1 a (by rw [hck] at ha; exact ha)
      simp only [decide_eq_true_eq] at hap
      rcases List.mem_cons.mp hb with rfl | hb2
      · exact hap
      · exact horig.2.2 a ha b hb2
  · show (db.dict ++ [(db.idGetter v, v)]).Perm
      ((db.array.insertIdx (db.cntLt (db.key v)) v).map
        (fun w => (db.idGetter w, w)))
    have p1 : (db.dict ++ [(db.idGetter v, v)]).Perm ((db.idGetter v, v) :: db.dict) :=
      List.perm_append_singleton _ _
    have p2 : ((db.idGetter v, v) :: db.dict).Perm
        ((db.idGetter v, v) :: db.array.map (fun w => (db.idGetter w, w))) :=
      hd.cons _
    have p3 : ((db.array.insertIdx (db.cntLt (db.key v)) v).map
        (fun w => (db.idGetter w, w))).Perm
        ((db.idGetter v, v) :: db.array.map (fun w => (db.idGetter w, w))) :=
      hperm.map _
    exact (p1.trans p2).trans p3.symm
  · show ((db.array.insertIdx (db.cntLt (db.key v)) v).map db.idGetter).Nodup
    have hpm : ((db.array.insertIdx (db.cntLt (db.key v)) v).map db.idGetter).Perm
        (db.idGetter v :: db.array.map db.idGetter) := hperm.map _
    rw [hpm.nodup_iff, List.nodup_cons]
    refine ⟨?_, hn⟩
    intro hcon
    obtain ⟨m, hm, he⟩ := List.mem_map.mp hcon
    have hfresh := (lookupA_eq_none_iff _ _).mp hid
    have hmem : (db.idGetter m, m) ∈ db.dict :=
      hd.mem_iff.mpr (List.mem_map.mpr ⟨m, hm, rfl⟩)
    exact hfresh _ hmem he

/-- One successful `_insertSingle` step from an invariant state. -/
theorem insertSingle_inv {db db' : KeyedDB V K} (hc : LawfulCompare db.compare)
    (hInv : db.Inv) {ov : Option V} (h : db._insertSingle ov = .ok db') :
    db'.Inv ∧ db'.key = db.key ∧ db'.compare = db.compare ∧
      db'.idGetter = db.idGetter ∧
      ∃ v, ov = some v ∧ db'.array.Perm (v :: db.array) := by
  obtain ⟨v, rfl, hid, hkey, rfl⟩ := insertSingle_ok_cases hc hInv.1 h
  exact ⟨inv_insert_fresh hc hInv v hid hkey, rfl, rfl, rfl, v, rfl,
    List.perm_insertIdx v db.array (cntLt_le_length _)⟩

/-- The bulk `insert` always leaves an invariant state, whether or not a
failure aborted it partway. -/
theorem insert_inv (vs : List (Option V)) :
    ∀ (db : KeyedDB V K), LawfulCompare db.compare → db.Inv →
      (db.insert vs).1.Inv ∧ (db.insert vs).1.key = db.key ∧
        (db.insert vs).1.compare = db.compare ∧
        (db.insert vs).1.idGetter = db.idGetter := by
  induction vs with
  | nil =>
    intro db hc hInv
    exact ⟨hInv, rfl, rfl, rfl⟩
  | cons ov rest ih =>
    intro db hc hInv
    rcases hstep : db._insertSingle ov with e | db1
    · simp only [KeyedDB.insert, hstep]
      exact ⟨hInv, by trivial, by trivial, by trivial⟩
    · simp only [KeyedDB.insert, hstep]
      obtain ⟨hInv1, hk, hcmp, hidg, -⟩ := insertSingle_inv hc hInv hstep
      obtain ⟨ha, hb, hcc, hdd⟩ := ih db1 (hcmp ▸ hc) hInv1
      exact ⟨ha, hb.trans hk, hcc.trans hcmp, hdd.trans hidg⟩

end InsertTheory

section DeleteTheory

variable {V K : Type} [DecidableEq V] [DecidableEq K] [LinearOrder K]

theorem dict_fst_nodup {db : KeyedDB V K} (hInv : db.Inv) :
    (db.dict.map Prod.fst).Nodup := by
  have hperm : (db.dict.map Prod.fst).Perm
      ((db.array.map (fun v => (db.idGetter v, v))).map Prod.fst) :=
    hInv.2.1.map Prod.fst
  rw [List.map_map] at hperm
  exact hperm.nodup_iff.mpr hInv.2.2

theorem get_eq_some_iff {db : KeyedDB V K} (hInv : db.Inv) (s : String) (v : V) :
    db.get s = some v ↔ v ∈ db.array ∧ db.idGetter v = s := by
  rw [KeyedDB.get, lookupA_eq_some_iff _ (dict_fst_nodup hInv), hInv.2.1.mem_iff,
    List.mem_map]
  constructor
  · rintro ⟨w, hw, he⟩
    have h1 : db.idGetter w = s := congrArg Prod.fst he
    have h2 : w = v := congrArg Prod.snd he
    exact ⟨h2 ▸ hw, h2 ▸ h1⟩
  · rintro ⟨hv, hs⟩
    exact ⟨v, hv, by rw [hs]⟩

theorem get_eq_none_iff {db : KeyedDB V K} (hInv : db.Inv) (s : String) :
    db.get s = none ↔ ∀ v ∈ db.array, db.idGetter v ≠ s := by
  rw [KeyedDB.get, lookupA_eq_none_iff]
  constructor
  · intro h v hv
    exact h (db.idGetter v, v) (hInv.2.1.mem_iff.mpr (List.mem_map.mpr ⟨v, hv, rfl⟩))
  · intro h p hp
    obtain ⟨w, hw, he⟩ := List.mem_map.mp (hInv.2.1.mem_iff.mp hp)
    rw [← he]
    exact h w hw

theorem array_nodup {db : KeyedDB V K} (hc : LawfulCompare db.compare)
    (hs : db.SortedC) : db.array.Nodup :=
  (sortedC_keys hc hs).imp
    (fun h he => absurd (he ▸ h) (lt_irrefl _))

theorem key_unique_mem {db : KeyedDB V K} (hc : LawfulCompare db.compare)
    (hs : db.SortedC) {m1 m2 : V} (h1 : m1 ∈ db.array) (h2 : m2 ∈ db.array)
    (he : db.key m1 = db.key m2) : m1 = m2 := by
  obtain ⟨i, hi, hei⟩ := List.mem_iff_getElem.mp h1
  obtain ⟨j, hj, hej⟩ := List.mem_iff_getElem.mp h2
  have hei2 : db.array.get ⟨i, hi⟩ = m1 := by simpa [List.get_eq_getElem] using hei
  have hej2 : db.array.get ⟨j, hj⟩ = m2 := by simpa [List.get_eq_getElem] using hej
  rcases lt_trichotomy i j with h | h | h
  · exfalso
    have := key_lt_of_index hc hs h hj
    rw [hei2, hej2, he] at this
    exact lt_irrefl _ this
  · rw [← hei2, ← hej2]
    subst h
    rfl
  · exfalso
    have := key_lt_of_index hc hs h hi
    rw [hei2, hej2, he] at this
    exact lt_irrefl _ this

theorem firstIndex_mem {db : KeyedDB V K} (hc : LawfulCompare db.compare)
    (hs : db.SortedC) {v : V} (i : Nat) (hi : i < db.array.length)
    (he : db.array.get ⟨i, hi⟩ = v) : db.firstIndex v = (i : Int) := by
  have : db.firstIndex v = binarySearch db.array
      (fun x => db.compare (db.key (db.array.get ⟨i, hi⟩)) (db.key x)) := by
    simp only [KeyedDB.firstIndex, he]
  rw [this]
  exact bs_key_at hc hs i hi

/-- Erasing by a predicate matched by at most one element (up to equality)
commutes with permutation. -/
theorem perm_eraseP_of_unique {γ : Type} (p : γ → Bool) :
    ∀ {l1 l2 : List γ}, l1.Perm l2 →
      (∀ x ∈ l1, ∀ y ∈ l1, p x → p y → x = y) →
      (l1.eraseP p).Perm (l2.eraseP p) := by
  intro l1 l2 h
  induction h with
  | nil => exact fun _ => List.Perm.refl _
  | cons x h ih =>
    intro huniq
    rw [List.eraseP_cons, List.eraseP_cons]
    by_cases hpx : p x
    · simpa [hpx] using h
    · simp only [hpx, cond_false]
      exact (ih (fun a ha b hb => huniq a (List.mem_cons_of_mem x ha)
        b (List.mem_cons_of_mem x hb))).cons x
  | swap a b l =>
    intro huniq
    by_cases hpa : p a <;> by_cases hpb : p b
    · have : a = b := huniq a (by simp) b (by simp) hpa hpb
      subst this
      exact List.Perm.refl _
    · simp only [List.eraseP_cons, hpa, hpb, cond_true, cond_false]
      exact List.Perm.refl _
    · simp only [List.eraseP_cons, hpa, hpb, cond_true, cond_false]
      exact List.Perm.refl _
    · simp only [List.eraseP_cons, hpa, hpb, cond_false]
      exact List.Perm.swap a b _
  | trans h12 h23 ih12 ih23 =>
    intro huniq
    exact (ih12 huniq).trans (ih23 (fun x hx y hy px py =>
      huniq x (h12.mem_iff.mpr hx) y (h12.mem_iff.mpr hy) px py))

theorem ids_ne_of_index {db : KeyedDB V K} (hn : db.NodupIds) {i j : Nat}
    (hne : i ≠ j) (hi : i < db.array.length) (hj : j < db.array.length) :
    db.idGetter (db.array.get ⟨i, hi⟩) ≠ db.idGetter (db.array.get ⟨j, hj⟩) := by
  intro hcon
  apply hne
  have hmi : i < (db.array.map db.idGetter).length := by simpa using hi
  have hmj : j < (db.array.map db.idGetter).length := by simpa using hj
  have hme : (db.array.map db.idGetter).get ⟨i, hmi⟩ =
      (db.array.map db.idGetter).get ⟨j, hmj⟩ := by
    simp only [List.get_eq_getElem, List.getElem_map]
    simpa [List.get_eq_getElem] using hcon
  simp only [List.get_eq_getElem] at hme
  exact hn.getElem_inj_iff.mp hme

/-- Deleting the identity binding of the member at index `i` from the
canonical map-form of the dictionary removes exactly that pair. -/
theorem dictDelete_map_eraseIdx {db : KeyedDB V K} (hn : db.NodupIds)
    (i : Nat) (hi : i < db.array.length) :
    dictDelete (db.array.map (fun w => (db.idGetter w, w)))
        (db.idGetter (db.array.get ⟨i, hi⟩)) =
      (db.array.eraseIdx i).map (fun w => (db.idGetter w, w)) := by
  have hidfresh : ∀ b ∈ (db.array.take i).map (fun w => (db.idGetter w, w)),
      ¬ (decide (b.1 = db.idGetter (db.array.get ⟨i, hi⟩)) = true) := by
    intro b hb
    obtain ⟨w, hw, hwb⟩ := List.mem_map.mp hb
    obtain ⟨j, hjlen, hji, hje⟩ := (mem_take_iff_get _ _ _).mp hw
    simp only [← hwb, ← hje, decide_eq_true_eq]
    exact ids_ne_of_index hn (by omega) hjlen hi
  obtain ⟨m, he⟩ : ∃ m, db.array.get ⟨i, hi⟩ = m := ⟨_, rfl⟩
  have hsplit : db.array = db.array.take i ++ m :: db.array.drop (i + 1) := by
    conv_lhs => rw [← List.take_append_drop i db.array]
    rw [List.drop_eq_getElem_cons hi]
    rw [show db.array[i] = m from by simpa [List.get_eq_getElem] using he]
  rw [he] at hidfresh ⊢
  rw [List.eraseIdx_eq_take_drop_succ]
  conv_lhs => rw [hsplit]
  rw [List.map_append, List.map_cons, List.map_append, dictDelete,
    List.eraseP_append_right _ hidfresh, List.eraseP_cons_of_pos (by simp)]

/-- `delete` of a member: removes it at its index and erases its identity
binding. -/
theorem delete_mem {db : KeyedDB V K} (hc : LawfulCompare db.compare)
    (hs : db.SortedC) {v : V} (i : Nat) (hi : i < db.array.length)
    (he : db.array.get ⟨i, hi⟩ = v) :
    db.delete v = (some v,
      { db with array := db.array.eraseIdx i,
                dict := dictDelete db.dict (db.idGetter v) }) := by
  have hfi : db.firstIndex v = (i : Int) := firstIndex_mem hc hs i hi he
  have htn : (db.firstIndex v).toNat = i := by
    rw [hfi]
    simp
  have hgg : ∀ (h1 : (db.firstIndex v).toNat < db.array.length),
      db.array.get ⟨(db.firstIndex v).toNat, h1⟩ = v := by
    intro h1
    have := he
    simp only [List.get_eq_getElem] at this ⊢
    simp only [htn]
    exact this
  simp only [KeyedDB.delete]
  rw [dif_neg (by rw [hfi]; omega), if_neg (by rw [hgg]; exact not_not_intro rfl),
    hgg, htn]

/-- `delete` of a value with no key-matching member: no effect. -/
theorem delete_miss {db : KeyedDB V K} (hc : LawfulCompare db.compare)
    (hs : db.SortedC) (v : V)
    (habs : ∀ m ∈ db.array, db.key m ≠ db.key v) :
    db.delete v = (none, db) := by
  have hbs := bs_absent hc hs (db.key v) habs
  have hfi : db.firstIndex v =
      (if db.array.length = 0 then 0
       else if db.cntLt (db.key v) = 0 then -1 else (db.cntLt (db.key v) : Int)) := hbs
  by_cases h0 : db.array.length = 0
  · rw [if_pos h0] at hfi
    simp only [KeyedDB.delete]
    rw [dif_pos (by rw [hfi]; omega)]
  · rw [if_neg h0] at hfi
    by_cases hcz : db.cntLt (db.key v) = 0
    · rw [if_pos hcz] at hfi
      simp only [KeyedDB.delete]
      rw [dif_pos (by rw [hfi]; omega)]
    · rw [if_neg hcz] at hfi
      by_cases hclen : db.cntLt (db.key v) = db.array.length
      · simp only [KeyedDB.delete]
        rw [dif_pos (by rw [hfi, hclen]; omega)]
      · have hclt : db.cntLt (db.key v) < db.array.length :=
          lt_of_le_of_ne (cntLt_le_length _) hclen
        simp only [KeyedDB.delete]
        rw [dif_neg (by rw [hfi]; omega), if_pos]
        exact fun hcon => habs _ (List.get_mem db.array _ _) hcon.symm

/-- The state left by deleting a member keeps all invariants. -/
theorem delete_mem_inv {db : KeyedDB V K} (hc : LawfulCompare db.compare)
    (hInv : db.Inv) {v : V} (i : Nat) (hi : i < db.array.length)
    (he : db.array.get ⟨i, hi⟩ = v) :
    ({ db with array := db.array.eraseIdx i,
               dict := dictDelete db.dict (db.idGetter v) } : KeyedDB V K).Inv := by
  obtain ⟨hs, hd, hn⟩ := hInv
  refine ⟨?_, ?_, ?_⟩
  · exact List.Pairwise.sublist (List.eraseIdx_sublist db.array i) hs
  · show (dictDelete db.dict (db.idGetter v)).Perm
      ((db.array.eraseIdx i).map (fun w => (db.idGetter w, w)))
    have hfstn : (db.dict.map Prod.fst).Nodup := dict_fst_nodup ⟨hs, hd, hn⟩
    have huniq : ∀ x ∈ db.dict, ∀ y ∈ db.dict,
        decide (x.1 = db.idGetter v) → decide (y.1 = db.idGetter v) → x = y := by
      intro x hx y hy hx1 hy1
      simp only [decide_eq_true_eq] at hx1 hy1
      exact assoc_entry_unique db.dict hfstn x hx y hy (by rw [hx1, hy1])
    have hperm := perm_eraseP_of_unique
      (fun p => decide (p.1 = db.idGetter v)) hd huniq
    have heq := dictDelete_map_eraseIdx hn i hi
    rw [he] at heq
    exact heq ▸ hperm
  · show ((db.array.eraseIdx i).map db.idGetter).Nodup
    exact List.Nodup.sublist
      (List.Sublist.map db.idGetter (List.eraseIdx_sublist db.array i)) hn

/-- `delete` keeps all invariants provided any member sharing the argument's
key is the argument itself. -/
theorem delete_inv_safe {db : KeyedDB V K} (hc : LawfulCompare db.compare)
    (hInv : db.Inv) (v : V)
    (hsafe : ∀ m ∈ db.array, db.key m = db.key v → m = v) :
    (db.delete v).2.Inv ∧ (db.delete v).2.key = db.key ∧
      (db.delete v).2.compare = db.compare ∧
      (db.delete v).2.idGetter = db.idGetter := by
  by_cases hmem : ∃ m ∈ db.array, db.key m = db.key v
  · obtain ⟨m, hm, hkm⟩ := hmem
    have hmv : m = v := hsafe m hm hkm
    subst hmv
    obtain ⟨i, hi, he⟩ := List.mem_iff_getElem.mp hm
    have he2 : db.array.get ⟨i, hi⟩ = m := by simpa [List.get_eq_getElem] using he
    rw [delete_mem hc hInv.1 i hi he2]
    exact ⟨delete_mem_inv hc hInv i hi he2, rfl, rfl, rfl⟩
  · push_neg at hmem
    rw [delete_miss hc hInv.1 v hmem]
    exact ⟨hInv, rfl, rfl, rfl⟩

/-- `deleteById` keeps all invariants in every successful outcome. -/
theorem deleteById_inv {db : KeyedDB V K} (hc : LawfulCompare db.compare)
    (hInv : db.Inv) (s : String) (ap : Bool) {r : Option V × KeyedDB V K}
    (h : db.deleteById s ap = .ok r) :
    r.2.Inv ∧ r.2.key = db.key ∧ r.2.compare = db.compare ∧
      r.2.idGetter = db.idGetter := by
  rcases hget : db.get s with _ | m
  · simp only [KeyedDB.deleteById, hget] at h
    rcases ap with _ | _
    · have h2 : Except.ok (ε := DBError) (Option.none (α := V), db) = Except.ok r := by
        simpa using h
      injection h2 with h2
      rw [← h2]
      exact ⟨hInv, rfl, rfl, rfl⟩
    · simp at h
  · simp only [KeyedDB.deleteById, hget] at h
    injection h with h
    rw [← h]
    have hm : m ∈ db.array := ((get_eq_some_iff hInv s m).mp hget).1
    exact delete_inv_safe hc hInv m
      (fun w hw hkw => key_unique_mem hc hInv.1 hw hm hkw)

end DeleteTheory

section BulkInsertTheory

variable {V K : Type} [DecidableEq V] [DecidableEq K] [LinearOrder K]

theorem dictDelete_append_singleton (d : List (String × V)) (s : String) (v : V)
    (h : ∀ p ∈ d, p.1 ≠ s) : dictDelete (d ++ [(s, v)]) s = d := by
  rw [dictDelete, List.eraseP_append_right _ (fun b hb => by simp [h b hb]),
    List.eraseP_cons_of_pos (by simp)]
  simp

/-- Inserting a sequence of values that are pairwise fresh (keys and
identities) succeeds and accumulates exactly those values. -/
theorem insert_all_fresh (vs : List V) :
    ∀ (db : KeyedDB V K), LawfulCompare db.compare → db.Inv →
      (∀ v ∈ vs, ∀ m ∈ db.array, db.key m ≠ db.key v) →
      (∀ v ∈ vs, db.get (db.idGetter v) = none) →
      vs.Pairwise (fun a b => db.key a ≠ db.key b) →
      vs.Pairwise (fun a b => db.idGetter a ≠ db.idGetter b) →
      (db.insert (vs.map some)).2 = none ∧
      (db.insert (vs.map some)).1.array.Perm (vs ++ db.array) := by
  induction vs with
  | nil =>
    intro db hc hInv hkeys hids hpk hpi
    exact ⟨rfl, List.Perm.refl _⟩
  | cons v rest ih =>
    intro db hc hInv hkeys hids hpk hpi
    have hid := hids v (List.mem_cons_self v rest)
    have hkey := fun m hm => hkeys v (List.mem_cons_self v rest) m hm
    have hok := insertSingle_ok hc hInv.1 v hid hkey
    have hpk1 := List.pairwise_cons.mp hpk
    have hpi1 := List.pairwise_cons.mp hpi
    simp only [List.map_cons, KeyedDB.insert, hok]
    have hperm1 : (db.array.insertIdx (db.cntLt (db.key v)) v).Perm
        (v :: db.array) := List.perm_insertIdx v db.array (cntLt_le_length _)
    have hres := ih { db with
        array := db.array.insertIdx (db.cntLt (db.key v)) v,
        dict := db.dict ++ [(db.idGetter v, v)] } hc
      (inv_insert_fresh hc hInv v hid hkey)
      (by
        intro w hw m hm
        rcases (List.mem_insertIdx (cntLt_le_length _)).mp hm with rfl | hm2
        · exact hpk1.1 w hw
        · exact hkeys w (List.mem_cons_of_mem v hw) m hm2)
      (by
        intro w hw
        show lookupA (db.dict ++ [(db.idGetter v, v)]) (db.idGetter w) = none
        rw [lookupA_eq_none_iff]
        intro p hp
        rcases List.mem_append.mp hp with hp1 | hp1
        · exact (lookupA_eq_none_iff _ _).mp (hids w (List.mem_cons_of_mem v hw)) p hp1
        · rcases List.mem_singleton.mp hp1 with rfl
          exact hpi1.1 w hw)
      hpk1.2 hpi1.2
    refine ⟨hres.1, ?_⟩
    refine hres.2.trans ?_
    refine (List.Perm.append_left rest hperm1).trans ?_
    exact List.perm_middle

end BulkInsertTheory

section UpdateTheory

variable {V K : Type} [DecidableEq V] [DecidableEq K] [LinearOrder K]

theorem set_get_self {γ : Type} (l : List γ) (i : Nat) (hi : i < l.length) :
    l.set i (l.get ⟨i, hi⟩) = l := by
  apply List.ext_getElem (by simp)
  intro j h1 h2
  rw [List.getElem_set]
  split
  · next hij =>
      subst hij
      simp [List.get_eq_getElem]
  · rfl

theorem pairwise_keys_set {db : KeyedDB V K} (hc : LawfulCompare db.compare)
    (hs : db.SortedC) (i : Nat) (hi : i < db.array.length) (nv : V)
    (hkeq : db.key nv = db.key (db.array.get ⟨i, hi⟩)) :
    (db.array.set i nv).Pairwise (fun a b => db.key a < db.key b) := by
  have horig := List.pairwise_iff_getElem.mp (sortedC_keys hc hs)
  have hkeq2 := hkeq
  simp only [List.get_eq_getElem] at hkeq2
  rw [List.pairwise_iff_getElem]
  intro a b ha hb hab
  rw [List.length_set] at ha hb
  rw [List.getElem_set, List.getElem_set]
  split
  · next h1 =>
      split
      · next h2 => omega
      · next h2 =>
          subst h1
          rw [hkeq2]
          exact horig i b hi hb hab
  · next h1 =>
      split
      · next h2 =>
          subst h2
          rw [hkeq2]
          exact horig a i ha hi hab
      · next h2 =>
          exact horig a b ha hb hab

theorem dictSet_present_eq {db : KeyedDB V K} (hInv : db.Inv) {m : V} {s : String}
    (hm : m ∈ db.array) (hmid : db.idGetter m = s) (i : Nat)
    (hi : i < db.array.length) (he : db.array.get ⟨i, hi⟩ = m) (nv : V)
    (hnvid : db.idGetter nv = s) :
    (dictSet db.dict s nv).Perm
      ((db.array.set i nv).map (fun w => (db.idGetter w, w))) := by
  have hmem : (s, m) ∈ db.dict :=
    hInv.2.1.mem_iff.mpr (List.mem_map.mpr ⟨m, hm, by rw [hmid]⟩)
  have hany : db.dict.any (fun p => decide (p.1 = s)) = true := by
    rw [List.any_eq_true]
    exact ⟨(s, m), hmem, by simp⟩
  rw [dictSet, if_pos hany]
  have hmapped := hInv.2.1.map (fun p => if p.1 = s then (s, nv) else p)
  refine hmapped.trans ?_
  rw [List.map_map]
  have hidm : db.idGetter (db.array.get ⟨i, hi⟩) = s := by rw [he, hmid]
  simp only [List.get_eq_getElem] at hidm
  have heq : db.array.map
      ((fun p => if p.1 = s then (s, nv) else p) ∘ (fun w => (db.idGetter w, w))) =
      (db.array.set i nv).map (fun w => (db.idGetter w, w)) := by
    apply List.ext_getElem (by simp)
    intro j h1 h2
    simp only [List.length_map] at h1 h2
    rw [List.length_set] at h2
    simp only [List.getElem_map, Function.comp_apply]
    rw [List.getElem_set]
    by_cases hij : i = j
    · subst hij
      rw [if_pos rfl, if_pos hidm, hnvid]
    · rw [if_neg hij, if_neg]
      have := ids_ne_of_index hInv.2.2 hij hi h2
      simp only [List.get_eq_getElem] at this
      rw [hidm] at this
      exact fun hcon => this hcon.symm
  rw [heq]

/-- `update` on a member whose mutated key is unchanged: the value is
replaced in place and the call returns status `1`. -/
theorem update_key_unchanged {db : KeyedDB V K} (hc : LawfulCompare db.compare)
    (hInv : db.Inv) {s : String} {m : V} (hget : db.get s = some m) (chg : V → V)
    (i : Nat) (hi : i < db.array.length) (he : db.array.get ⟨i, hi⟩ = m)
    (hkeq : db.key (chg m) = db.key m) :
    db.update s chg = ({ db with array := db.array.set i (chg m),
                                 dict := dictSet db.dict s (chg m) },
      some 1, none) := by
  have hfi := firstIndex_mem hc hInv.1 i hi he
  have htn : (db.firstIndex m).toNat = i := by
    rw [hfi]
    simp
  have hids : db.idGetter m = s := ((get_eq_some_iff hInv s m).mp hget).2
  have hgg : ∀ h1 : (db.firstIndex m).toNat < db.array.length,
      db.array.get ⟨(db.firstIndex m).toNat, h1⟩ = m := by
    intro h1
    have := he
    simp only [List.get_eq_getElem] at this ⊢
    simp only [htn]
    exact this
  simp only [KeyedDB.update, hget]
  rw [dif_pos ⟨by rw [hfi]; omega, by rw [htn]; exact hi⟩]
  rw [if_pos (by rw [hgg]; exact hids), if_neg (not_not_intro hkeq), htn]

/-- `update` on a member whose mutated key changed: the member is removed
and re-inserted through `_insertSingle`; status `2` on success, the thrown
error (with the member already removed) on failure. -/
theorem update_key_changed {db : KeyedDB V K} (hc : LawfulCompare db.compare)
    (hInv : db.Inv) {s : String} {m : V} (hget : db.get s = some m) (chg : V → V)
    (i : Nat) (hi : i < db.array.length) (he : db.array.get ⟨i, hi⟩ = m)
    (hkne : db.key (chg m) ≠ db.key m) :
    db.update s chg =
      (match ({ db with array := db.array.eraseIdx i,
                        dict := dictDelete db.dict s } :
          KeyedDB V K)._insertSingle (some (chg m)) with
        | .ok db2 => (db2, some 2, none)
        | .error e => ({ db with array := db.array.eraseIdx i,
                                 dict := dictDelete db.dict s },
            none, some e)) := by
  have hfi := firstIndex_mem hc hInv.1 i hi he
  have htn : (db.firstIndex m).toNat = i := by
    rw [hfi]
    simp
  have hids : db.idGetter m = s := ((get_eq_some_iff hInv s m).mp hget).2
  have hgg : ∀ h1 : (db.firstIndex m).toNat < db.array.length,
      db.array.get ⟨(db.firstIndex m).toNat, h1⟩ = m := by
    intro h1
    have := he
    simp only [List.get_eq_getElem] at this ⊢
    simp only [htn]
    exact this
  simp only [KeyedDB.update, hget]
  rw [dif_pos ⟨by rw [hfi]; omega, by rw [htn]; exact hi⟩]
  rw [if_pos (by rw [hgg]; exact hids), if_pos hkne, htn]

/-- `update` with an identity-preserving mutation keeps all invariants, in
every outcome. -/
theorem update_inv {db : KeyedDB V K} (hc : LawfulCompare db.compare)
    (hInv : db.Inv) (s : String) (chg : V → V)
    (hmutid : ∀ w, db.idGetter (chg w) = db.idGetter w) :
    (db.update s chg).1.Inv ∧ (db.update s chg).1.key = db.key ∧
      (db.update s chg).1.compare = db.compare ∧
      (db.update s chg).1.idGetter = db.idGetter := by
  rcases hget : db.get s with _ | m
  · simp only [KeyedDB.update, hget]
    exact ⟨hInv, by trivial, by trivial, by trivial⟩
  · have hm : m ∈ db.array := ((get_eq_some_iff hInv s m).mp hget).1
    have hids : db.idGetter m = s := ((get_eq_some_iff hInv s m).mp hget).2
    obtain ⟨i, hi, he0⟩ := List.mem_iff_getElem.mp hm
    have he : db.array.get ⟨i, hi⟩ = m := by simpa [List.get_eq_getElem] using he0
    by_cases hkeq : db.key (chg m) = db.key m
    · rw [update_key_unchanged hc hInv hget chg i hi he hkeq]
      have hc2 : LawfulCompare ({ db with array := db.array.set i (chg m),
                                          dict := dictSet db.dict s (chg m) } :
          KeyedDB V K).compare := hc
      refine ⟨⟨?_, ?_, ?_⟩, rfl, rfl, rfl⟩
      · exact sortedC_of_keys hc2
          (pairwise_keys_set hc hInv.1 i hi (chg m) (by rw [he, hkeq]))
      · exact dictSet_present_eq hInv hm hids i hi he (chg m)
          (by rw [hmutid m, hids])
      · show ((db.array.set i (chg m)).map db.idGetter).Nodup
        rw [List.map_set]
        have hmi : i < (db.array.map db.idGetter).length := by simpa using hi
        have hrow : db.idGetter (chg m) =
            (db.array.map db.idGetter).get ⟨i, hmi⟩ := by
          simp only [List.get_eq_getElem, List.getElem_map]
          rw [hmutid m, ← he]
          simp [List.get_eq_getElem]
        rw [hrow, set_get_self]
        exact hInv.2.2
    · rw [update_key_changed hc hInv hget chg i hi he hkeq]
      have hInv1 : ({ db with array := db.array.eraseIdx i,
                              dict := dictDelete db.dict s } : KeyedDB V K).Inv := by
        have := delete_mem_inv hc hInv i hi he
        rw [hids] at this
        exact this
      have hc1 : LawfulCompare ({ db with array := db.array.eraseIdx i,
                                          dict := dictDelete db.dict s } :
          KeyedDB V K).compare := hc
      rcases hins : ({ db with array := db.array.eraseIdx i,
                               dict := dictDelete db.dict s } :
          KeyedDB V K)._insertSingle (some (chg m)) with e | db2
      · simp only [hins]
        exact ⟨hInv1, by trivial, by trivial, by trivial⟩
      · simp only [hins]
        obtain ⟨hInv2, hk2, hcmp2, hid2, -⟩ := insertSingle_inv hc1 hInv1 hins
        exact ⟨hInv2, hk2, hcmp2, hid2⟩

/-- `upsert` keeps all invariants, in every outcome. -/
theorem upsert_inv (vs : List (Option V)) :
    ∀ (db : KeyedDB V K), LawfulCompare db.compare → db.Inv →
      (db.upsert vs).1.Inv ∧ (db.upsert vs).1.key = db.key ∧
        (db.upsert vs).1.compare = db.compare ∧
        (db.upsert vs).1.idGetter = db.idGetter := by
  induction vs with
  | nil =>
    intro db hc hInv
    exact ⟨hInv, rfl, rfl, rfl⟩
  | cons ov rest ih =>
    intro db hc hInv
    cases ov with
    | none => exact ih db hc hInv
    | some v =>
      rcases hdel : db.deleteById (db.idGetter v) false with e | pr
      · simp only [KeyedDB.upsert, hdel]
        exact ⟨hInv, by trivial, by trivial, by trivial⟩
      · obtain ⟨deleted, db1⟩ := pr
        obtain ⟨hInv1, hk1, hc1, hid1⟩ :=
          deleteById_inv hc hInv (db.idGetter v) false hdel
        have hcl1 : LawfulCompare db1.compare := by
          rw [show db1.compare = db.compare from hc1]
          exact hc
        rcases hins : db1._insertSingle (some v) with e | db2
        · simp only [KeyedDB.upsert, hdel, hins]
          exact ⟨hInv1, hk1, hc1, hid1⟩
        · simp only [KeyedDB.upsert, hdel, hins]
          obtain ⟨hInv2, hk2, hcmp2, hid2, -⟩ := insertSingle_inv hcl1 hInv1 hins
          obtain ⟨ha, hb, hcc, hd⟩ := ih db2 (by rw [hcmp2]; exact hcl1) hInv2
          exact ⟨ha, by rw [hb, hk2, hk1], by rw [hcc, hcmp2, hc1],
            by rw [hd, hid2, hid1]⟩

/-- `insertIfAbsent` keeps all invariants, in every outcome. -/
theorem insertIfAbsent_inv (vs : List (Option V)) :
    ∀ (db : KeyedDB V K), LawfulCompare db.compare → db.Inv →
      (db.insertIfAbsent vs).1.Inv ∧ (db.insertIfAbsent vs).1.key = db.key ∧
        (db.insertIfAbsent vs).1.compare = db.compare ∧
        (db.insertIfAbsent vs).1.idGetter = db.idGetter := by
  induction vs with
  | nil =>
    intro db hc hInv
    exact ⟨hInv, rfl, rfl, rfl⟩
  | cons ov rest ih =>
    intro db hc hInv
    cases ov with
    | none => exact ih db hc hInv
    | some v =>
      rcases hget : db.get (db.idGetter v) with _ | w
      · simp only [KeyedDB.insertIfAbsent, hget]
        split
        · split
          · exact ih db hc hInv
          · rcases hins : db._insertSingle (some v) with e | db1
            · simp only [hins]
              exact ⟨hInv, by trivial, by trivial, by trivial⟩
            · simp only [hins]
              obtain ⟨hInv1, hk1, hcmp1, hid1, -⟩ := insertSingle_inv hc hInv hins
              obtain ⟨ha, hb, hcc, hd⟩ := ih db1 (by rw [hcmp1]; exact hc) hInv1
              exact ⟨ha, by rw [hb, hk1], by rw [hcc, hcmp1], by rw [hd, hid1]⟩
        · split
          · exact ih db hc hInv
          · rcases hins : db._insertSingle (some v) with e | db1
            · simp only [hins]
              exact ⟨hInv, by trivial, by trivial, by trivial⟩
            · simp only [hins]
              obtain ⟨hInv1, hk1, hcmp1, hid1, -⟩ := insertSingle_inv hc hInv hins
              obtain ⟨ha, hb, hcc, hd⟩ := ih db1 (by rw [hcmp1]; exact hc) hInv1
              exact ⟨ha, by rw [hb, hk1], by rw [hcc, hcmp1], by rw [hd, hid1]⟩
      · simp only [KeyedDB.insertIfAbsent, hget]
        exact ih db hc hInv

/-- `clear` leaves an invariant state. -/
theorem clear_inv (db : KeyedDB V K) : db.clear.Inv := by
  refine ⟨List.Pairwise.nil, ?_, List.Pairwise.nil⟩
  show List.Perm [] (List.map _ [])
  simp

/-- Every remaining member after erasing index `i` carries an identity
different from the erased member's. -/
theorem mem_eraseIdx_id_ne {db : KeyedDB V K} (hn : db.NodupIds) (i : Nat)
    (hi : i < db.array.length) :
    ∀ w ∈ db.array.eraseIdx i,
      db.idGetter w ≠ db.idGetter (db.array.get ⟨i, hi⟩) := by
  intro w hw
  rw [List.eraseIdx_eq_take_drop_succ, List.mem_append] at hw
  rcases hw with hw | hw
  · obtain ⟨j, hjlen, hji, hje⟩ := (mem_take_iff_get _ _ _).mp hw
    rw [← hje]
    exact ids_ne_of_index hn (by omega) hjlen hi
  · obtain ⟨j, hjlen, hji, hje⟩ := (mem_drop_iff_get _ _ _).mp hw
    rw [← hje]
    exact ids_ne_of_index hn (by omega) hjlen hi

end UpdateTheory

section PaginationTheory

variable {V K : Type} [DecidableEq V] [DecidableEq K] [LinearOrder K]

/-- `rtake` is the suffix of the last `n` elements. -/
theorem rtake_eq_drop {β : Type} (l : List β) (n : Nat) :
    rtake l n = l.drop (l.length - n) := by
  rw [rtake, List.reverse_take, List.reverse_reverse, List.length_reverse]

/-- A list splits into its `rdrop` and its `rtake`. -/
theorem rdrop_append_rtake {β : Type} (l : List β) (n : Nat) :
    rdrop l n ++ rtake l n = l := by
  rw [rtake_eq_drop, rdrop, List.take_append_drop]

theorem chunks_nil {β : Type} (limit : Nat) : chunks limit ([] : List β) = [] := by
  rw [chunks]
  simp

theorem chunks_cons {β : Type} (limit : Nat) (l : List β) (h0 : limit ≠ 0)
    (hl : l ≠ []) :
    chunks limit l = l.take limit :: chunks limit (l.drop limit) := by
  conv_lhs => rw [chunks]
  rw [dif_neg]
  simp only [not_or]
  exact ⟨h0, by simpa [List.length_eq_zero] using hl⟩

/-- Concatenating the successive blocks restores the list. -/
theorem chunks_flatten_from {β : Type} (limit : Nat) (h0 : limit ≠ 0) :
    ∀ (n : Nat) (l : List β), l.length ≤ n → (chunks limit l).flatten = l := by
  intro n
  induction n with
  | zero =>
    intro l h
    have hl : l = [] := List.length_eq_zero.mp (by omega)
    subst hl
    rw [chunks_nil, List.flatten_nil]
  | succ n ih =>
    intro l h
    by_cases hl : l = []
    · subst hl
      rw [chunks_nil, List.flatten_nil]
    · rw [chunks_cons limit l h0 hl, List.flatten_cons,
        ih (l.drop limit) (by
          rw [List.length_drop]
          have h1 : 0 < l.length := List.length_pos.mpr hl
          omega),
        List.take_append_drop]

/-- Every block of a chunking is non-empty. -/
theorem chunks_pages_ne_nil {β : Type} (limit : Nat) (h0 : limit ≠ 0) :
    ∀ (n : Nat) (l : List β), l.length ≤ n →
      ∀ page ∈ chunks limit l, page ≠ [] := by
  intro n
  induction n with
  | zero =>
    intro l h page hp
    have hl : l = [] := List.length_eq_zero.mp (by omega)
    subst hl
    rw [chunks_nil] at hp
    cases hp
  | succ n ih =>
    intro l h page hp
    by_cases hl : l = []
    · subst hl
      rw [chunks_nil] at hp
      cases hp
    · rw [chunks_cons limit l h0 hl] at hp
      rcases List.mem_cons.mp hp with hp | hp
      · subst hp
        simp only [ne_eq, List.take_eq_nil_iff, not_or]
        exact ⟨h0, hl⟩
      · exact ih (l.drop limit) (by
          rw [List.length_drop]
          have h1 : 0 < l.length := List.length_pos.mpr hl
          omega) page hp

theorem rchunks_nil {β : Type} (limit : Nat) : rchunks limit ([] : List β) = [] := by
  rw [rchunks]
  simp

theorem rchunks_cons {β : Type} (limit : Nat) (l : List β) (h0 : limit ≠ 0)
    (hl : l ≠ []) :
    rchunks limit l = rtake l limit :: rchunks limit (rdrop l limit) := by
  conv_lhs => rw [rchunks]
  rw [dif_neg]
  simp only [not_or]
  exact ⟨h0, by simpa [List.length_eq_zero] using hl⟩

/-- Concatenating the back-to-front blocks in reverse block order restores
the list. -/
theorem rchunks_rev_flatten_from {β : Type} (limit : Nat) (h0 : limit ≠ 0) :
    ∀ (n : Nat) (l : List β), l.length ≤ n →
      ((rchunks limit l).reverse).flatten = l := by
  intro n
  induction n with
  | zero =>
    intro l h
    have hl : l = [] := List.length_eq_zero.mp (by omega)
    subst hl
    rw [rchunks_nil]
    rfl
  | succ n ih =>
    intro l h
    by_cases hl : l = []
    · subst hl
      rw [rchunks_nil]
      rfl
    · rw [rchunks_cons limit l h0 hl, List.reverse_cons, List.flatten_append,
        ih (rdrop l limit) (by
          rw [rdrop, List.length_take]
          have h1 : 0 < l.length := List.length_pos.mpr hl
          omega)]
      simp [rdrop_append_rtake]

/-- The collecting loop of `'after'` mode with a value-only predicate
appends, in order, the filtered items up to the remaining capacity. -/
theorem filteredAfterLoop_value (q : V → Bool) (s c : Nat) :
    ∀ (items acc : List V), acc.length < c →
      filteredAfterLoop (fun v _ => q v) s c acc items =
        acc ++ (items.filter q).take (c - acc.length) := by
  intro items
  induction items with
  | nil =>
    intro acc h
    simp [filteredAfterLoop]
  | cons item rest ih =>
    intro acc h
    simp only [filteredAfterLoop]
    by_cases hq : q item
    · rw [if_pos hq]
      by_cases hc2 : c ≤ (acc ++ [item]).length
      · rw [if_pos hc2]
        have hcl : c - acc.length = 1 := by
          simp only [List.length_append, List.length_singleton] at hc2
          omega
        rw [List.filter_cons, if_pos hq, hcl, List.take_succ_cons, List.take_zero]
      · rw [if_neg hc2]
        rw [ih (acc ++ [item]) (by
          simp only [List.length_append, List.length_singleton] at hc2 ⊢
          omega)]
        rw [List.filter_cons, if_pos hq]
        have hcl : c - acc.length = (c - (acc ++ [item]).length) + 1 := by
          simp only [List.length_append, List.length_singleton]
          simp only [List.length_append, List.length_singleton] at hc2
          omega
        rw [hcl, List.take_succ_cons]
        simp [List.append_assoc]
    · rw [if_neg hq]
      rw [if_neg (by omega : ¬ c ≤ acc.length)]
      rw [ih acc h, List.filter_cons, if_neg hq]

/-- The collecting loop of `'before'` mode with a value-only predicate
collects backward and returns the matches reversed before the accumulator. -/
theorem filteredBeforeLoop_value (q : V → Bool) (s c : Nat) :
    ∀ (items acc : List V), acc.length < c →
      filteredBeforeLoop (fun v _ => q v) s c acc items =
        ((items.filter q).take (c - acc.length)).reverse ++ acc := by
  intro items
  induction items with
  | nil =>
    intro acc h
    simp [filteredBeforeLoop]
  | cons item rest ih =>
    intro acc h
    simp only [filteredBeforeLoop]
    by_cases hq : q item
    · rw [if_pos hq]
      by_cases hc2 : c ≤ (item :: acc).length
      · rw [if_pos hc2]
        have hcl : c - acc.length = 1 := by
          simp only [List.length_cons] at hc2
          omega
        rw [List.filter_cons, if_pos hq, hcl, List.take_succ_cons, List.take_zero]
        simp
      · rw [if_neg hc2]
        rw [ih (item :: acc) (by
          simp only [List.length_cons] at hc2 ⊢
          omega)]
        rw [List.filter_cons, if_pos hq]
        have hcl : c - acc.length = (c - (item :: acc).length) + 1 := by
          simp only [List.length_cons] at hc2 ⊢
          omega
        rw [hcl, List.take_succ_cons]
        simp
    · rw [if_neg hq]
      rw [if_neg (by omega : ¬ c ≤ acc.length)]
      rw [ih acc h, List.filter_cons, if_neg hq]

/-- Whatever the predicate, the `'after'` loop appends a subsequence of the
items walked. -/
theorem filteredAfterLoop_sublist (p : V → Nat → Bool) (s c : Nat) :
    ∀ (items acc : List V), ∃ sub : List V,
      filteredAfterLoop p s c acc items = acc ++ sub ∧ sub.Sublist items := by
  intro items
  induction items with
  | nil =>
    intro acc
    exact ⟨[], by simp [filteredAfterLoop], List.Sublist.refl []⟩
  | cons item rest ih =>
    intro acc
    simp only [filteredAfterLoop]
    by_cases hq : p item (s + acc.length)
    · rw [if_pos hq]
      by_cases hc2 : c ≤ (acc ++ [item]).length
      · rw [if_pos hc2]
        exact ⟨[item], rfl, by simp⟩
      · rw [if_neg hc2]
        obtain ⟨sub, hs1, hs2⟩ := ih (acc ++ [item])
        exact ⟨item :: sub,
          by rw [hs1, List.append_assoc, List.singleton_append], hs2.cons₂ item⟩
    · rw [if_neg hq]
      by_cases hc2 : c ≤ acc.length
      · rw [if_pos hc2]
        exact ⟨[], by simp, by simp⟩
      · rw [if_neg hc2]
        obtain ⟨sub, hs1, hs2⟩ := ih acc
        exact ⟨sub, hs1, hs2.cons item⟩

/-- Whatever the predicate, the `'before'` loop prepends the reverse of a
subsequence of the items walked. -/
theorem filteredBeforeLoop_sublist (p : V → Nat → Bool) (s c : Nat) :
    ∀ (items acc : List V), ∃ sub : List V,
      filteredBeforeLoop p s c acc items = sub.reverse ++ acc ∧
        sub.Sublist items := by
  intro items
  induction items with
  | nil =>
    intro acc
    exact ⟨[], by simp [filteredBeforeLoop], List.Sublist.refl []⟩
  | cons item rest ih =>
    intro acc
    simp only [filteredBeforeLoop]
    by_cases hq : p item (s + acc.length)
    · rw [if_pos hq]
      by_cases hc2 : c ≤ (item :: acc).length
      · rw [if_pos hc2]
        exact ⟨[item], rfl, by simp⟩
      · rw [if_neg hc2]
        obtain ⟨sub, hs1, hs2⟩ := ih (item :: acc)
        refine ⟨item :: sub, ?_, hs2.cons₂ item⟩
        rw [hs1, List.reverse_cons, List.append_assoc, List.singleton_append]
    · rw [if_neg hq]
      by_cases hc2 : c ≤ acc.length
      · rw [if_pos hc2]
        exact ⟨[], by simp, by simp⟩
      · rw [if_neg hc2]
        obtain ⟨sub, hs1, hs2⟩ := ih acc
        exact ⟨sub, hs1, hs2.cons item⟩

/-- `filtered` in `'after'` mode with a value-only predicate: the first
`limit` matches at or beyond `start`. -/
theorem filtered_after_value (db : KeyedDB V K) (q : V → Bool)
    (start limit : Nat) (hlim : 1 ≤ limit) :
    db.filtered start limit .after (some (fun v _ => q v)) =
      ((db.array.drop start).filter q).take limit := by
  show filteredAfterLoop _ start limit [] (db.array.drop start) = _
  rw [filteredAfterLoop_value q start limit (db.array.drop start) []
    (by simpa using hlim)]
  simp

/-- `filtered` in `'before'` mode with a value-only predicate: the last
`limit` matches strictly before `start`, in ascending order. -/
theorem filtered_before_value (db : KeyedDB V K) (q : V → Bool)
    (start limit : Nat) (hlim : 1 ≤ limit) :
    db.filtered start limit .before (some (fun v _ => q v)) =
      rtake ((db.array.take start).filter q) limit := by
  show filteredBeforeLoop _ start limit [] (db.array.take start).reverse = _
  rw [filteredBeforeLoop_value q start limit (db.array.take start).reverse []
    (by simpa using hlim)]
  rw [List.filter_reverse, rtake]
  simp

/-- Every `filtered` result is a subsequence of the ordered sequence. -/
theorem filtered_sublist (db : KeyedDB V K) (start count : Nat)
    (mode : PaginationMode) (pred : Option (V → Nat → Bool)) :
    (db.filtered start count mode pred).Sublist db.array := by
  cases mode with
  | after =>
    cases pred with
    | none =>
      show ((db.array.drop start).take count).Sublist db.array
      exact (List.take_sublist _ _).trans (List.drop_sublist _ _)
    | some p =>
      show (filteredAfterLoop p start count [] (db.array.drop start)).Sublist
        db.array
      obtain ⟨sub, h1, h2⟩ :=
        filteredAfterLoop_sublist p start count (db.array.drop start) []
      rw [h1, List.nil_append]
      exact h2.trans (List.drop_sublist _ _)
  | before =>
    cases pred with
    | none =>
      show ((db.array.take start).drop (start - count)).Sublist db.array
      exact (List.drop_sublist _ _).trans (List.take_sublist _ _)
    | some p =>
      show (filteredBeforeLoop p start count []
        (db.array.take start).reverse).Sublist db.array
      obtain ⟨sub, h1, h2⟩ :=
        filteredBeforeLoop_sublist p start count (db.array.take start).reverse []
      rw [h1, List.append_nil]
      have h3 : sub.reverse.Sublist (db.array.take start) := by
        have h4 := h2.reverse
        rwa [List.reverse_reverse] at h4
      exact h3.trans (List.take_sublist _ _)

/-- Filtering distributes over the take/drop split. -/
theorem filter_take_append_drop (l : List V) (q : V → Bool) (n : Nat) :
    (l.take n).filter q ++ (l.drop n).filter q = l.filter q := by
  rw [← List.filter_append, List.take_append_drop]

/-- The filtered suffix is a suffix of the filtered list. -/
theorem filter_drop_eq (l : List V) (q : V → Bool) (n : Nat) :
    (l.drop n).filter q = (l.filter q).drop (((l.take n).filter q).length) := by
  conv_rhs => rw [← filter_take_append_drop l q n]
  rw [List.drop_left]

/-- The filtered prefix is a prefix of the filtered list. -/
theorem filter_take_eq (l : List V) (q : V → Bool) (n : Nat) :
    (l.take n).filter q = (l.filter q).take (((l.take n).filter q).length) := by
  conv_rhs => rw [← filter_take_append_drop l q n]
  rw [List.take_left]

/-- On a duplicate-free list, the element at position `u` of the filtered
list sits at a unique index `j` of the list, with exactly `u` matches
strictly before it. -/
theorem filter_pos_index {l : List V} (hn : l.Nodup) (q : V → Bool) (u : Nat)
    (hu : u < (l.filter q).length) :
    ∃ j, ∃ hj : j < l.length,
      l.get ⟨j, hj⟩ = (l.filter q).get ⟨u, hu⟩ ∧
      ((l.take j).filter q).length = u ∧
      ((l.take (j + 1)).filter q).length = u + 1 := by
  have hwmem : (l.filter q).get ⟨u, hu⟩ ∈ l.filter q := List.get_mem _ _ _
  have hql : q ((l.filter q).get ⟨u, hu⟩) = true := List.of_mem_filter hwmem
  have hwl : (l.filter q).get ⟨u, hu⟩ ∈ l := List.mem_of_mem_filter hwmem
  obtain ⟨j, hj, he⟩ := List.mem_iff_getElem.mp hwl
  have hFsplit : l.filter q =
      (l.take j).filter q ++
        (l.filter q).get ⟨u, hu⟩ :: (l.drop (j + 1)).filter q := by
    conv_lhs => rw [← filter_take_append_drop l q j]
    congr 1
    rw [List.drop_eq_getElem_cons hj, he, List.filter_cons, if_pos hql]
  have hA : ((l.take j).filter q).length = u := by
    have hFnodup : (l.filter q).Nodup :=
      List.Nodup.sublist (List.filter_sublist l) hn
    have hlenA : ((l.take j).filter q).length < (l.filter q).length := by
      conv_rhs => rw [hFsplit]
      simp only [List.length_append, List.length_cons]
      omega
    have hgA : (l.filter q)[((l.take j).filter q).length] =
        (l.filter q).get ⟨u, hu⟩ := by
      rw [List.getElem_of_eq hFsplit hlenA]
      rw [List.getElem_append_right (le_refl _)]
      simp
    rw [List.get_eq_getElem] at hgA
    have h5 := hFnodup.getElem_inj_iff.mp hgA
    simpa using h5
  refine ⟨j, hj, by simpa [List.get_eq_getElem] using he, hA, ?_⟩
  have htc : l.take (j + 1) = (l.take j) ++ [(l.filter q).get ⟨u, hu⟩] := by
    rw [← List.concat_eq_append, ← he, List.take_concat_get]
  rw [htc, List.filter_append, List.filter_cons, if_pos hql]
  simp [hA]

/-- `paginated` with a null cursor in `'after'` mode: the first `limit`
matches of the whole sequence. -/
theorem paginated_none_after (db : KeyedDB V K) (q : V → Bool) (limit : Nat)
    (hlim : 1 ≤ limit) :
    db.paginated none limit (some (fun v _ => q v)) .after =
      some ((db.array.filter q).take limit) := by
  show some (db.filtered 0 limit .after (some (fun v _ => q v))) = _
  rw [filtered_after_value db q 0 limit hlim, List.drop_zero]

/-- `paginated` with a null cursor in `'before'` mode: the last `limit`
matches of the whole sequence, ascending. -/
theorem paginated_none_before (db : KeyedDB V K) (q : V → Bool) (limit : Nat)
    (hlim : 1 ≤ limit) :
    db.paginated none limit (some (fun v _ => q v)) .before =
      some (rtake (db.array.filter q) limit) := by
  show some (db.filtered db.array.length limit .before (some (fun v _ => q v))) = _
  rw [filtered_before_value db q db.array.length limit hlim, List.take_length]

/-- `paginated` in `'after'` mode with the key of the member at index `i` as
cursor: the first `limit` matches strictly beyond index `i`. -/
theorem paginated_member_after {db : KeyedDB V K} (hc : LawfulCompare db.compare)
    (hs : db.SortedC) (q : V → Bool) (limit : Nat) (hlim : 1 ≤ limit)
    (i : Nat) (hi : i < db.array.length) :
    db.paginated (some (db.key (db.array.get ⟨i, hi⟩))) limit
        (some (fun v _ => q v)) .after =
      some (((db.array.drop (i + 1)).filter q).take limit) := by
  have hbs := bs_key_at hc hs i hi
  simp only [KeyedDB.paginated, hbs]
  rw [if_neg (not_lt.mpr (Int.natCast_nonneg i))]
  rw [show ((i : Int)).toNat = i by simp]
  rw [List.getElem?_eq_getElem hi]
  show some (db.filtered
      (if db.key db.array[i] = db.key (db.array.get ⟨i, hi⟩) then i + 1 else i)
      limit .after (some (fun v _ => q v))) = _
  rw [if_pos (by simp [List.get_eq_getElem])]
  rw [filtered_after_value db q (i + 1) limit hlim]

/-- `paginated` in `'before'` mode with the key of the member at index `i`
as cursor: the last `limit` matches strictly before index `i`, ascending. -/
theorem paginated_member_before {db : KeyedDB V K} (hc : LawfulCompare db.compare)
    (hs : db.SortedC) (q : V → Bool) (limit : Nat) (hlim : 1 ≤ limit)
    (i : Nat) (hi : i < db.array.length) :
    db.paginated (some (db.key (db.array.get ⟨i, hi⟩))) limit
        (some (fun v _ => q v)) .before =
      some (rtake ((db.array.take i).filter q) limit) := by
  have hbs := bs_key_at hc hs i hi
  simp only [KeyedDB.paginated, hbs]
  rw [if_neg (not_lt.mpr (Int.natCast_nonneg i))]
  rw [show ((i : Int)).toNat = i by simp]
  rw [List.getElem?_eq_getElem hi]
  show some (db.filtered
      (if db.key db.array[i] = db.key (db.array.get ⟨i, hi⟩) then i else i)
      limit .before (some (fun v _ => q v))) = _
  rw [if_pos (by simp [List.get_eq_getElem])]
  rw [filtered_before_value db q i limit hlim]

/-- Any page `paginated` returns is a subsequence of the ordered sequence. -/
theorem paginated_sublist (db : KeyedDB V K) (cursor : Option K) (limit : Nat)
    (pred : Option (V → Nat → Bool)) (mode : PaginationMode) (page : List V)
    (h : db.paginated cursor limit pred mode = some page) :
    page.Sublist db.array := by
  cases cursor with
  | none =>
    simp only [KeyedDB.paginated] at h
    injection h with h
    rw [← h]
    exact filtered_sublist db _ limit mode pred
  | some c =>
    simp only [KeyedDB.paginated] at h
    split at h
    · exact absurd h (by simp)
    · injection h with h
      rw [← h]
      exact filtered_sublist db _ limit mode pred

/-- The forward traversal starting just past the member at index `j`: the
pages are the successive blocks of the filtered elements beyond position
`u`, where `u` counts the matches at or before index `j`. -/
theorem afterPages_drop {db : KeyedDB V K} (hc : LawfulCompare db.compare)
    (hs : db.SortedC) (q : V → Bool) (limit : Nat) (hlim : 1 ≤ limit) :
    ∀ (fuel u j : Nat) (hj : j < db.array.length),
      ((db.array.take (j + 1)).filter q).length = u →
      (db.array.filter q).length - u < fuel →
      db.afterPages q limit fuel (some (db.key (db.array.get ⟨j, hj⟩))) =
        chunks limit ((db.array.filter q).drop u) := by
  intro fuel
  induction fuel with
  | zero =>
    intro u j hj hpos hfuel
    omega
  | succ fuel ih =>
    intro u j hj hpos hfuel
    have hpage := paginated_member_after hc hs q limit hlim j hj
    have hdrop : (db.array.drop (j + 1)).filter q =
        (db.array.filter q).drop u := by
      rw [filter_drop_eq, hpos]
    rw [hdrop] at hpage
    by_cases hFu : (db.array.filter q).drop u = []
    · rw [hFu, List.take_nil] at hpage
      simp only [KeyedDB.afterPages, hpage, hFu, chunks_nil]
    · have hulen : u < (db.array.filter q).length := by
        by_contra hcon
        push_neg at hcon
        exact hFu (List.drop_eq_nil_of_le hcon)
      obtain ⟨x, xs, hxxs⟩ : ∃ x xs,
          ((db.array.filter q).drop u).take limit = x :: xs := by
        cases hP : ((db.array.filter q).drop u).take limit with
        | nil =>
          rcases List.take_eq_nil_iff.mp hP with h1 | h1
          · omega
          · exact absurd h1 hFu
        | cons x xs => exact ⟨x, xs, rfl⟩
      have hlen_xxs : (x :: xs).length =
          min limit ((db.array.filter q).length - u) := by
        rw [← hxxs]
        simp [List.length_take, List.length_drop]
      have hxpos : 0 < (x :: xs).length := by
        rw [List.length_cons]
        omega
      have hlt : u + ((x :: xs).length - 1) < (db.array.filter q).length := by
        omega
      have hlast : (x :: xs).getLast (List.cons_ne_nil x xs) =
          (db.array.filter q).get ⟨u + ((x :: xs).length - 1), hlt⟩ := by
        rw [List.getLast_eq_getElem]
        rw [List.getElem_of_eq hxxs.symm (by omega)]
        rw [List.getElem_take, List.getElem_drop]
        simp [List.get_eq_getElem]
      obtain ⟨j2, hj2, hje2, hpos2a, hpos2b⟩ :=
        filter_pos_index (array_nodup hc hs) q (u + ((x :: xs).length - 1)) hlt
      simp only [KeyedDB.afterPages, hpage, hxxs]
      rw [hlast, ← hje2]
      rw [ih (u + ((x :: xs).length - 1) + 1) j2 hj2 hpos2b (by omega)]
      rw [chunks_cons limit ((db.array.filter q).drop u) (by omega) hFu]
      rw [List.drop_drop]
      congr 1
      · exact hxxs.symm
      · congr 1
        by_cases hcase : limit ≤ (db.array.filter q).length - u
        · congr 1
          omega
        · rw [List.drop_eq_nil_of_le (by omega),
            List.drop_eq_nil_of_le (by omega)]

/-- The forward traversal from a null cursor: the pages are the successive
blocks of the filtered sequence. -/
theorem afterPages_none {db : KeyedDB V K} (hc : LawfulCompare db.compare)
    (hs : db.SortedC) (q : V → Bool) (limit : Nat) (hlim : 1 ≤ limit) :
    ∀ (fuel : Nat), (db.array.filter q).length < fuel →
      db.afterPages q limit fuel none = chunks limit (db.array.filter q) := by
  intro fuel hfuel
  cases fuel with
  | zero => omega
  | succ fuel =>
    have hpage := paginated_none_after db q limit hlim
    by_cases hF : db.array.filter q = []
    · rw [hF, List.take_nil] at hpage
      simp only [KeyedDB.afterPages, hpage, hF, chunks_nil]
    · obtain ⟨x, xs, hxxs⟩ : ∃ x xs,
          (db.array.filter q).take limit = x :: xs := by
        cases hP : (db.array.filter q).take limit with
        | nil =>
          rcases List.take_eq_nil_iff.mp hP with h1 | h1
          · omega
          · exact absurd h1 hF
        | cons x xs => exact ⟨x, xs, rfl⟩
      have hFpos : 0 < (db.array.filter q).length := List.length_pos.mpr hF
      have hlen_xxs : (x :: xs).length =
          min limit (db.array.filter q).length := by
        rw [← hxxs]
        simp [List.length_take]
      have hxpos : 0 < (x :: xs).length := by
        rw [List.length_cons]
        omega
      have hlt : (x :: xs).length - 1 < (db.array.filter q).length := by
        omega
      have hlast : (x :: xs).getLast (List.cons_ne_nil x xs) =
          (db.array.filter q).get ⟨(x :: xs).length - 1, hlt⟩ := by
        rw [List.getLast_eq_getElem]
        rw [List.getElem_of_eq hxxs.symm (by omega)]
        rw [List.getElem_take]
        simp [List.get_eq_getElem]
      obtain ⟨j2, hj2, hje2, hpos2a, hpos2b⟩ :=
        filter_pos_index (array_nodup hc hs) q ((x :: xs).length - 1) hlt
      simp only [KeyedDB.afterPages, hpage, hxxs]
      rw [hlast, ← hje2]
      rw [afterPages_drop hc hs q limit hlim fuel ((x :: xs).length - 1 + 1)
        j2 hj2 hpos2b (by omega)]
      rw [chunks_cons limit (db.array.filter q) (by omega) hF]
      congr 1
      · exact hxxs.symm
      · congr 1
        by_cases hcase : limit ≤ (db.array.filter q).length
        · congr 1
          omega
        · rw [List.drop_eq_nil_of_le (by omega),
            List.drop_eq_nil_of_le (by omega)]

/-- The backward traversal starting at the member at index `j`: the pages
are the back-to-front blocks of the filtered elements strictly before
position `u`, where `u` counts the matches strictly before index `j`. -/
theorem beforePages_take {db : KeyedDB V K} (hc : LawfulCompare db.compare)
    (hs : db.SortedC) (q : V → Bool) (limit : Nat) (hlim : 1 ≤ limit) :
    ∀ (fuel u j : Nat) (hj : j < db.array.length),
      ((db.array.take j).filter q).length = u →
      u < fuel →
      db.beforePages q limit fuel (some (db.key (db.array.get ⟨j, hj⟩))) =
        rchunks limit ((db.array.filter q).take u) := by
  intro fuel
  induction fuel with
  | zero =>
    intro u j hj hpos hfuel
    omega
  | succ fuel ih =>
    intro u j hj hpos hfuel
    have hpage := paginated_member_before hc hs q limit hlim j hj
    have htake : (db.array.take j).filter q = (db.array.filter q).take u := by
      rw [filter_take_eq, hpos]
    rw [htake] at hpage
    have hulen : u ≤ (db.array.filter q).length := by
      have h1 := congrArg List.length htake
      rw [hpos, List.length_take] at h1
      omega
    by_cases hu0 : u = 0
    · subst hu0
      rw [List.take_zero] at hpage
      rw [show rtake ([] : List V) limit = [] from by rw [rtake_eq_drop]; simp]
        at hpage
      simp only [KeyedDB.beforePages, hpage]
      rw [List.take_zero, rchunks_nil]
    · have hne : (db.array.filter q).take u ≠ [] := by
        simp only [ne_eq, List.take_eq_nil_iff, not_or]
        refine ⟨hu0, fun h1 => hu0 ?_⟩
        rw [h1] at hulen
        simpa using hulen
      have hrt : rtake ((db.array.filter q).take u) limit =
          ((db.array.filter q).take u).drop (u - limit) := by
        rw [rtake_eq_drop, List.length_take]
        congr 1
        omega
      obtain ⟨x, xs, hxxs⟩ : ∃ x xs,
          rtake ((db.array.filter q).take u) limit = x :: xs := by
        cases hP : rtake ((db.array.filter q).take u) limit with
        | nil =>
          rw [hrt] at hP
          have h1 := List.drop_eq_nil_iff.mp hP
          rw [List.length_take] at h1
          omega
        | cons x xs => exact ⟨x, xs, rfl⟩
      have hlen_xxs : (x :: xs).length = min limit u := by
        have h1 := congrArg List.length hxxs
        rw [hrt, List.length_drop, List.length_take] at h1
        omega
      have hxpos : 0 < (x :: xs).length := by
        rw [List.length_cons]
        omega
      have hlt2 : u - limit < (db.array.filter q).length := by
        omega
      have hdlen : 0 <
          (((db.array.filter q).take u).drop (u - limit)).length := by
        rw [hrt.symm.trans hxxs]
        exact hxpos
      have hhead : x = (db.array.filter q).get ⟨u - limit, hlt2⟩ := by
        have h1 := List.getElem_of_eq (hrt.symm.trans hxxs) hdlen
        rw [List.getElem_cons_zero] at h1
        rw [← h1, List.getElem_drop, List.getElem_take]
        simp [List.get_eq_getElem]
      obtain ⟨j2, hj2, hje2, hpos2a, hpos2b⟩ :=
        filter_pos_index (array_nodup hc hs) q (u - limit) hlt2
      simp only [KeyedDB.beforePages, hpage, hxxs]
      rw [show db.key x = db.key (db.array.get ⟨j2, hj2⟩) from by
        rw [hhead, ← hje2]]
      rw [ih (u - limit) j2 hj2 hpos2a (by omega)]
      rw [rchunks_cons limit ((db.array.filter q).take u) (by omega) hne]
      congr 1
      · exact hxxs.symm
      · congr 1
        rw [rdrop, List.length_take, List.take_take]
        congr 1
        omega

/-- The backward traversal from a null cursor: the pages are the
back-to-front blocks of the filtered sequence. -/
theorem beforePages_none {db : KeyedDB V K} (hc : LawfulCompare db.compare)
    (hs : db.SortedC) (q : V → Bool) (limit : Nat) (hlim : 1 ≤ limit) :
    ∀ (fuel : Nat), (db.array.filter q).length < fuel →
      db.beforePages q limit fuel none = rchunks limit (db.array.filter q) := by
  intro fuel hfuel
  cases fuel with
  | zero => omega
  | succ fuel =>
    have hpage := paginated_none_before db q limit hlim
    by_cases hF : db.array.filter q = []
    · rw [hF] at hpage
      rw [show rtake ([] : List V) limit = [] from by rw [rtake_eq_drop]; simp]
        at hpage
      simp only [KeyedDB.beforePages, hpage, hF, rchunks_nil]
    · have hFpos : 0 < (db.array.filter q).length := List.length_pos.mpr hF
      have hrt : rtake (db.array.filter q) limit =
          (db.array.filter q).drop ((db.array.filter q).length - limit) :=
        rtake_eq_drop _ _
      obtain ⟨x, xs, hxxs⟩ : ∃ x xs,
          rtake (db.array.filter q) limit = x :: xs := by
        cases hP : rtake (db.array.filter q) limit with
        | nil =>
          rw [hrt] at hP
          have h1 := List.drop_eq_nil_iff.mp hP
          omega
        | cons x xs => exact ⟨x, xs, rfl⟩
      have hlen_xxs : (x :: xs).length =
          min limit (db.array.filter q).length := by
        have h1 := congrArg List.length hxxs
        rw [hrt, List.length_drop] at h1
        omega
      have hxpos : 0 < (x :: xs).length := by
        rw [List.length_cons]
        omega
      have hlt2 : (db.array.filter q).length - limit <
          (db.array.filter q).length := by
        omega
      have hdlen : 0 < ((db.array.filter q).drop
          ((db.array.filter q).length - limit)).length := by
        rw [hrt.symm.trans hxxs]
        exact hxpos
      have hhead : x = (db.array.filter q).get
          ⟨(db.array.filter q).length - limit, hlt2⟩ := by
        have h1 := List.getElem_of_eq (hrt.symm.trans hxxs) hdlen
        rw [List.getElem_cons_zero] at h1
        rw [← h1, List.getElem_drop]
        simp [List.get_eq_getElem]
      obtain ⟨j2, hj2, hje2, hpos2a, hpos2b⟩ :=
        filter_pos_index (array_nodup hc hs) q
          ((db.array.filter q).length - limit) hlt2
      simp only [KeyedDB.beforePages, hpage, hxxs]
      rw [show db.key x = db.key (db.array.get ⟨j2, hj2⟩) from by
        rw [hhead, ← hje2]]
      rw [beforePages_take hc hs q limit hlim fuel
        ((db.array.filter q).length - limit) j2 hj2 hpos2a (by omega)]
      rw [rchunks_cons limit (db.array.filter q) (by omega) hF]
      congr 1
      exact hxxs.symm

end PaginationTheory

section Claims

theorem lawful_intCmp : LawfulCompare intCmp := by
  intro a b
  constructor
  · constructor <;> intro h <;> simp [intCmp] at * <;> omega
  · constructor <;> intro h <;> simp [intCmp] at * <;> omega

/-- C1: inserting a finite sequence of values with pairwise distinct keys
(under `compare`) and pairwise distinct identities one at a time into an
empty collection succeeds, and the resulting Ordered Sequence (as returned
by `all()`, which is also what iteration yields) is exactly those values
sorted ascending by `compare` on extracted keys: it is a permutation of the
input, it is sorted, and it equals every sorted permutation of the input. -/
theorem claim1_sort_invariant {V K : Type} [DecidableEq V] [DecidableEq K]
    [LinearOrder K] (key : V → K) (cmp : K → K → Int) (idg : V → String)
    (hc : LawfulCompare cmp) (vs : List V)
    (hkeys : vs.Pairwise (fun a b => cmp (key a) (key b) ≠ 0))
    (hids : vs.Pairwise (fun a b => idg a ≠ idg b)) :
    ((KeyedDB.empty key cmp idg).insert (vs.map some)).2 = none ∧
    ((KeyedDB.empty key cmp idg).insert (vs.map some)).1.all.Perm vs ∧
    ((KeyedDB.empty key cmp idg).insert (vs.map some)).1.SortedC ∧
    ((KeyedDB.empty key cmp idg).insert (vs.map some)).1.iterList =
      ((KeyedDB.empty key cmp idg).insert (vs.map some)).1.all ∧
    (∀ l2 : List V, l2.Perm vs →
      l2.Pairwise (fun a b => cmp (key a) (key b) < 0) →
      ((KeyedDB.empty key cmp idg).insert (vs.map some)).1.all = l2) := by
  have hc0 : LawfulCompare (KeyedDB.empty key cmp idg).compare := hc
  have hInv0 : (KeyedDB.empty key cmp idg).Inv := by
    refine ⟨List.Pairwise.nil, ?_, ?_⟩ <;> constructor
  have hres := insert_all_fresh vs (KeyedDB.empty key cmp idg) hc0 hInv0
    (by intro v hv m hm; simp [KeyedDB.empty] at hm)
    (by intro v hv; rfl)
    (hkeys.imp (fun h he => h (((hc _ _).2.mpr he) : cmp _ _ = 0)))
    hids
  have hInvRes := insert_inv (vs.map some) (KeyedDB.empty key cmp idg) hc0 hInv0
  have hperm : ((KeyedDB.empty key cmp idg).insert (vs.map some)).1.all.Perm vs := by
    have := hres.2
    simpa [KeyedDB.all, KeyedDB.empty] using this
  have hsorted := hInvRes.1.1
  refine ⟨hres.1, hperm, hsorted, rfl, ?_⟩
  intro l2 hl2 hl2s
  have hrkey : ((KeyedDB.empty key cmp idg).insert (vs.map some)).1.key = key :=
    hInvRes.2.1
  have hrcmp : ((KeyedDB.empty key cmp idg).insert (vs.map some)).1.compare = cmp :=
    hInvRes.2.2.1
  have hs2 : ((KeyedDB.empty key cmp idg).insert (vs.map some)).1.all.Pairwise
      (fun a b => cmp (key a) (key b) < 0) := by
    have := hsorted
    rw [KeyedDB.SortedC, hrkey, hrcmp] at this
    exact this
  haveI : IsAntisymm V (fun a b => cmp (key a) (key b) < 0) := by
    constructor
    intro a b h1 h2
    exact absurd (lt_trans ((hc _ _).1.mp h1) ((hc _ _).1.mp h2)) (lt_irrefl _)
  exact List.eq_of_perm_of_sorted (hperm.trans hl2.symm) hs2 hl2s

theorem claim1_sort_invariant_witness :
    LawfulCompare intCmp ∧
    ((KeyedDB.empty Prod.fst intCmp Prod.snd).insert
        (([(5, "a"), (1, "b"), (3, "c")] : List (Int × String)).map some)).1.all =
      [(1, "b"), (3, "c"), (5, "a")] := by
  refine ⟨lawful_intCmp, ?_⟩
  exact (claim1_sort_invariant Prod.fst intCmp Prod.snd lawful_intCmp
    [(5, "a"), (1, "b"), (3, "c")] (by decide) (by decide)).2.2.2.2
    [(1, "b"), (3, "c"), (5, "a")] (by decide) (by decide)

/-- C5: `insert` fails with `DuplicateIdentity` whenever the value's identity
is already in the Identity Index — this check runs before the positional
insert, regardless of the key situation — and, with a fresh identity, fails
with `DuplicateKey` whenever the value's key compares equal to an existing
member's key, regardless of identities; in either failure the failing value
is added to neither structure (the call returns the unchanged state). -/
theorem claim5_duplicate_errors {V K : Type} [DecidableEq V] [DecidableEq K]
    [LinearOrder K] (db : KeyedDB V K) (hc : LawfulCompare db.compare)
    (hInv : db.Inv) :
    (∀ v w, db.get (db.idGetter v) = some w →
      db._insertSingle (some v) = .error .duplicateIdentity) ∧
    (∀ v, db.get (db.idGetter v) = none →
      (∃ m ∈ db.array, db.compare (db.key v) (db.key m) = 0) →
      db._insertSingle (some v) = .error .duplicateKey) ∧
    (∀ v e, db._insertSingle (some v) = .error e →
      db.insert [some v] = (db, some e)) := by
  refine ⟨fun v w h => insertSingle_err_id db v w h, ?_, ?_⟩
  · rintro v hid ⟨m, hm, hkm⟩
    exact insertSingle_err_key hc hInv.1 v hid m hm hkm
  · intro v e h
    simp [KeyedDB.insert, h]

theorem claim5_duplicate_errors_witness :
    (pairDB [(5, "a")]).Inv ∧
    (pairDB [(5, "a")])._insertSingle (some (7, "a")) =
      .error .duplicateIdentity ∧
    (pairDB [(5, "a")])._insertSingle (some (5, "b")) = .error .duplicateKey := by
  refine ⟨by decide, ?_, ?_⟩
  · exact (claim5_duplicate_errors (pairDB [(5, "a")]) lawful_intCmp (by decide)).1
      (7, "a") (5, "a") (by decide)
  · exact (claim5_duplicate_errors (pairDB [(5, "a")]) lawful_intCmp
      (by decide)).2.1 (5, "b") (by decide) ⟨(5, "a"), by decide, by decide⟩

/-- C8: for a value whose key and identity are both absent, `insert` then
`delete` of that value restores exactly the prior state — the same ordered
sequence and the same identity index. -/
theorem claim8_round_trip {V K : Type} [DecidableEq V] [DecidableEq K]
    [LinearOrder K] (db : KeyedDB V K) (hc : LawfulCompare db.compare)
    (hInv : db.Inv) (v : V)
    (hkey : ∀ m ∈ db.array, db.key m ≠ db.key v)
    (hid : db.get (db.idGetter v) = none) :
    ∃ db1, db.insert [some v] = (db1, none) ∧ db1.delete v = (some v, db) := by
  have hok := insertSingle_ok hc hInv.1 v hid hkey
  refine ⟨{ db with array := db.array.insertIdx (db.cntLt (db.key v)) v,
                    dict := db.dict ++ [(db.idGetter v, v)] }, ?_, ?_⟩
  · simp [KeyedDB.insert, hok]
  · have hInv1 := inv_insert_fresh hc hInv v hid hkey
    have hlen : db.cntLt (db.key v) ≤ db.array.length := cntLt_le_length _
    have hic : db.cntLt (db.key v) <
        (db.array.insertIdx (db.cntLt (db.key v)) v).length := by
      rw [List.length_insertIdx _ _ hlen]
      omega
    have hget : (db.array.insertIdx (db.cntLt (db.key v)) v).get
        ⟨db.cntLt (db.key v), hic⟩ = v := by
      have := List.getElem_insertIdx_self db.array v (db.cntLt (db.key v)) hlen
      simpa [List.get_eq_getElem] using this
    have hc1 : LawfulCompare ({ db with
        array := db.array.insertIdx (db.cntLt (db.key v)) v,
        dict := db.dict ++ [(db.idGetter v, v)] } : KeyedDB V K).compare := hc
    rw [delete_mem hc1 hInv1.1 (db.cntLt (db.key v)) hic hget]
    rw [List.eraseIdx_insertIdx (db.cntLt (db.key v)) db.array]
    rw [dictDelete_append_singleton db.dict (db.idGetter v) v
      ((lookupA_eq_none_iff _ _).mp hid)]

theorem claim8_round_trip_witness :
    (pairDB [(1, "b"), (5, "a")]).Inv ∧
    (∃ db1, (pairDB [(1, "b"), (5, "a")]).insert [some (3, "c")] = (db1, none) ∧
      db1.delete (3, "c") = (some (3, "c"), pairDB [(1, "b"), (5, "a")])) :=
  ⟨by decide, claim8_round_trip (pairDB [(1, "b"), (5, "a")]) lawful_intCmp
    (by decide) (3, "c") (by decide) (by decide)⟩

/-- C3: for every sequence sorted consistently with a monotonic signed probe,
the Ordered Search returns: `0` on the empty sequence; an index probing zero
when a match exists; `-1` when the target belongs strictly before index 0;
the length `n` when the target belongs strictly after the last element; and
otherwise the insertion point — the index of the first element probing
non-positive from the target's side (equivalently, probing non-negative
relative to the target).  Concretely, on `[1,2,3,4,5,10,16,91,240]` probing
for `70` returns `7`, for `700` returns `9`, for `-1` returns `-1`. -/
theorem claim3_ordered_search :
    (binarySearch ([1, 2, 3, 4, 5, 10, 16, 91, 240] : List Int)
      (fun x => 70 - x) = 7) ∧
    (binarySearch ([1, 2, 3, 4, 5, 10, 16, 91, 240] : List Int)
      (fun x => 700 - x) = 9) ∧
    (binarySearch ([1, 2, 3, 4, 5, 10, 16, 91, 240] : List Int)
      (fun x => -1 - x) = -1) ∧
    (∀ {α : Type} (probe : α → Int), binarySearch ([] : List α) probe = 0) ∧
    (∀ {α : Type} (l : List α) (probe : α → Int), SignMono l probe →
      (∃ i, ∃ h : i < l.length, probe (l.get ⟨i, h⟩) = 0) →
      ∃ j, ∃ hj : j < l.length, binarySearch l probe = (j : Int) ∧
        probe (l.get ⟨j, hj⟩) = 0) ∧
    (∀ {α : Type} (l : List α) (probe : α → Int) (h0 : 0 < l.length),
      probe (l.get ⟨0, h0⟩) < 0 → binarySearch l probe = -1) ∧
    (∀ {α : Type} (l : List α) (probe : α → Int), SignMono l probe →
      ∀ (h0 : 0 < l.length), 0 < probe (l.get ⟨l.length - 1, by omega⟩) →
      binarySearch l probe = (l.length : Int)) ∧
    (∀ {α : Type} (l : List α) (probe : α → Int), SignMono l probe →
      (∀ i (h : i < l.length), probe (l.get ⟨i, h⟩) ≠ 0) →
      ∀ (h0 : 0 < l.length), 0 < probe (l.get ⟨0, h0⟩) →
      probe (l.get ⟨l.length - 1, by omega⟩) < 0 →
      ∃ j : Nat, binarySearch l probe = (j : Int) ∧ 0 < j ∧ j < l.length ∧
        (∀ i (h : i < l.length), i < j → 0 < probe (l.get ⟨i, h⟩)) ∧
        (∀ i (h : i < l.length), j ≤ i → probe (l.get ⟨i, h⟩) < 0)) := by
  refine ⟨by decide, by decide, by decide, ?_, ?_, ?_, ?_, ?_⟩
  · intro α probe
    exact binarySearch_nil probe
  · intro α l probe hmono hex
    obtain ⟨i, hi, hz⟩ := hex
    obtain ⟨j, hj, hjlen, hz2⟩ := binarySearch_match l probe hmono i hi
      (by rw [probeAt_eq_get _ _ _ hi]; exact hz)
    rw [probeAt_eq_get _ _ _ hjlen] at hz2
    exact ⟨j, hjlen, hj, hz2⟩
  · intro α l probe h0 hneg
    exact binarySearch_neg_first l probe h0
      (by rw [probeAt_eq_get _ _ _ h0]; exact hneg)
  · intro α l probe hmono h0 hpos
    exact binarySearch_pos_last l probe hmono h0
      (by rw [probeAt_eq_get _ _ _ (by omega : l.length - 1 < l.length)]; exact hpos)
  · intro α l probe hmono hnz h0 hpos hneg
    obtain ⟨j, hj, hjpos, hjlen, hb1, hb2⟩ := binarySearch_boundary l probe hmono
      (fun i hi hz => hnz i hi (by rw [probeAt_eq_get _ _ _ hi] at hz; exact hz))
      (by rw [probeAt_eq_get _ _ _ h0]; exact hpos)
      (by rw [probeAt_eq_get _ _ _ (by omega : l.length - 1 < l.length)]; exact hneg)
    refine ⟨j, hj, hjpos, hjlen, ?_, ?_⟩
    · intro i h hij
      have := hb1 i hij
      rw [probeAt_eq_get _ _ _ h] at this
      exact this
    · intro i h hji
      have := hb2 i hji h
      rw [probeAt_eq_get _ _ _ h] at this
      exact this

theorem claim3_ordered_search_witness :
    SignMono ([5, 7] : List Int) (fun x => 6 - x) ∧
    (∀ i (h : i < ([5, 7] : List Int).length),
      (fun x => (6 : Int) - x) (([5, 7] : List Int).get ⟨i, h⟩) ≠ 0) ∧
    binarySearch ([5, 7] : List Int) (fun x => 6 - x) = 1 := by
  refine ⟨by decide, by decide, ?_⟩
  obtain ⟨j, hj, hjpos, hjlen, hb1, hb2⟩ :=
    claim3_ordered_search.2.2.2.2.2.2.2 ([5, 7] : List Int) (fun x => 6 - x)
      (by decide) (by decide) (by decide) (by decide) (by decide)
  have hj1 : j = 1 := by
    have h2 : ([5, 7] : List Int).length = 2 := rfl
    omega
  rw [hj, hj1]
  rfl

/-- C9: with a non-null cursor strictly greater than every member's key — in
particular any non-null cursor on an empty collection — the Ordered Search
returns the sequence length, so `paginated` applies the key extractor to an
absent element: in this total embedding the error branch (`none`) is
reached. -/
theorem claim9_cursor_out_of_range {V K : Type} [DecidableEq K]
    (db : KeyedDB V K) (k : K) (limit : Nat)
    (predicate : Option (V → Nat → Bool)) (mode : PaginationMode)
    (h : ∀ m ∈ db.array, 0 < db.compare k (db.key m)) :
    binarySearch db.array (fun v => db.compare k (db.key v)) =
      (db.array.length : Int) ∧
    db.paginated (some k) limit predicate mode = none := by
  have hbs : binarySearch db.array (fun v => db.compare k (db.key v)) =
      (db.array.length : Int) := by
    rw [binarySearch_all_pos db.array _ (fun i hi => by
      rw [probeAt_eq_get _ _ _ hi]
      exact h _ (List.get_mem db.array i hi))]
  refine ⟨hbs, ?_⟩
  simp only [KeyedDB.paginated, hbs]
  rw [if_neg (by omega)]
  rw [show ((db.array.length : Int)).toNat = db.array.length by simp]
  rw [List.getElem?_eq_none (le_refl _)]

theorem claim9_cursor_out_of_range_witness :
    (∀ m ∈ (pairDB [(1, "a"), (3, "c")]).array,
      0 < (pairDB [(1, "a"), (3, "c")]).compare 5 ((pairDB [(1, "a"), (3, "c")]).key m)) ∧
    (pairDB [(1, "a"), (3, "c")]).paginated (some 5) 10 none .after = none := by
  constructor
  · decide
  · exact (claim9_cursor_out_of_range (pairDB [(1, "a"), (3, "c")]) 5 10 none .after
      (by decide)).2

/-- C10: `insert` fails with `InvalidValue` ("falsey value") on an absent
value, while `upsert` and `insertIfAbsent` silently skip absent values: the
collection is unchanged for such a value and it is omitted from the returned
list. -/
theorem claim10_falsey_values {V K : Type} [DecidableEq K]
    (db : KeyedDB V K) (vs : List (Option V)) :
    db._insertSingle none = .error .invalidValue ∧
    db.insert (none :: vs) = (db, some .invalidValue) ∧
    db.upsert (none :: vs) = db.upsert vs ∧
    db.insertIfAbsent (none :: vs) = db.insertIfAbsent vs :=
  ⟨rfl, rfl, rfl, rfl⟩

/-- C2: counterexample to the unconditional Identity-Index invariant.
Calling `delete` with a non-member argument whose key collides with a
member removes the member from the ordered sequence but erases the
argument's (absent) identity from the index: the member's binding stays
behind and the Identity Index no longer matches the Ordered Sequence. -/
theorem claim2_counterexample :
    ((pairDB [(5, "a")]).delete (5, "b")).2.array = [] ∧
    ((pairDB [(5, "a")]).delete (5, "b")).2.dict = [("a", (5, "a"))] ∧
    ¬ ((pairDB [(5, "a")]).delete (5, "b")).2.DictOK := by
  refine ⟨by decide, by decide, by decide⟩

/-- C2 (amended): from an invariant state, the Identity Index again holds
exactly the members of the Ordered Sequence after `insert`, `upsert`,
`insertIfAbsent` and `clear`, after every successful `deleteById`, after
`update` with an identity-preserving mutation, and after `delete` whenever
any member sharing the argument's key is the argument itself (in particular
when the argument is a member, or its key is absent). -/
theorem claim2_index_consistency {V K : Type} [DecidableEq V] [DecidableEq K]
    [LinearOrder K] (db : KeyedDB V K) (hc : LawfulCompare db.compare)
    (hInv : db.Inv) (vs : List (Option V)) (s : String) (ap : Bool)
    (chg : V → V) (v : V) :
    (db.insert vs).1.DictOK ∧
    (db.upsert vs).1.DictOK ∧
    (db.insertIfAbsent vs).1.DictOK ∧
    db.clear.DictOK ∧
    (∀ r, db.deleteById s ap = .ok r → r.2.DictOK) ∧
    ((∀ w, db.idGetter (chg w) = db.idGetter w) → (db.update s chg).1.DictOK) ∧
    ((∀ m ∈ db.array, db.key m = db.key v → m = v) →
      (db.delete v).2.DictOK) := by
  refine ⟨(insert_inv vs db hc hInv).1.2.1,
    (upsert_inv vs db hc hInv).1.2.1,
    (insertIfAbsent_inv vs db hc hInv).1.2.1,
    (clear_inv db).2.1,
    fun r h => (deleteById_inv hc hInv s ap h).1.2.1,
    fun hid => (update_inv hc hInv s chg hid).1.2.1,
    fun hsafe => (delete_inv_safe hc hInv v hsafe).1.2.1⟩

theorem claim2_index_consistency_witness :
    (pairDB [(1, "a"), (2, "b")]).Inv ∧
    ((pairDB [(1, "a"), (2, "b")]).insert [some (3, "c")]).1.DictOK ∧
    ((pairDB [(1, "a"), (2, "b")]).delete (1, "a")).2.DictOK ∧
    ((pairDB [(1, "a"), (2, "b")]).update "a" (fun w => w)).1.DictOK := by
  refine ⟨by decide, ?_, ?_, ?_⟩
  · exact (claim2_index_consistency (pairDB [(1, "a"), (2, "b")]) lawful_intCmp
      (by decide) [some (3, "c")] "a" true (fun w => w) (1, "a")).1
  · exact (claim2_index_consistency (pairDB [(1, "a"), (2, "b")]) lawful_intCmp
      (by decide) [some (3, "c")] "a" true (fun w => w) (1, "a")).2.2.2.2.2.2
      (by decide)
  · exact (claim2_index_consistency (pairDB [(1, "a"), (2, "b")]) lawful_intCmp
      (by decide) [some (3, "c")] "a" true (fun w => w) (1, "a")).2.2.2.2.2.1
      (fun w => rfl)

/-- C6: counterexample to the unconditional reposition behaviour.  An
`update` whose mutation changes the member's key onto another member's key
does not re-insert the member: the member is removed, no status is
returned, and a `DuplicateKey` error is reported instead. -/
theorem claim6_counterexample :
    ((pairDB [(1, "a"), (2, "b")]).update "a" (fun w => (2, w.2))).2.1 = none ∧
    ((pairDB [(1, "a"), (2, "b")]).update "a" (fun w => (2, w.2))).2.2 =
      some DBError.duplicateKey ∧
    ((pairDB [(1, "a"), (2, "b")]).update "a" (fun w => (2, w.2))).1.array =
      [(2, "b")] := by
  refine ⟨by decide, by decide, by decide⟩

/-- C6 (amended): for `update(id, mutate)` from an invariant state: if `id`
names no member, `update` returns the state unchanged with no status; if it
names the member at index `i` and the mutated key is unchanged, the member
is overwritten in place (no repositioning) with status `1`; if the mutated
key changed, the mutation preserves the identity, and the new key collides
with no remaining member, the member is removed from index `i` and
re-inserted at the position matching its new key (the count of smaller
keys), the invariants hold, the identity binding is re-appended, and the
status is `2`. -/
theorem claim6_update_reposition {V K : Type} [DecidableEq V] [DecidableEq K]
    [LinearOrder K] (db : KeyedDB V K) (hc : LawfulCompare db.compare)
    (hInv : db.Inv) (s : String) (chg : V → V) :
    (db.get s = none → db.update s chg = (db, none, none)) ∧
    (∀ m, db.get s = some m → ∀ i, ∀ hi : i < db.array.length,
      db.array.get ⟨i, hi⟩ = m →
      ((db.key (chg m) = db.key m →
        db.update s chg =
          ({ db with array := db.array.set i (chg m),
                     dict := dictSet db.dict s (chg m) },
            some 1, none)) ∧
       (db.key (chg m) ≠ db.key m →
        db.idGetter (chg m) = db.idGetter m →
        (∀ w ∈ db.array.eraseIdx i,
          db.compare (db.key (chg m)) (db.key w) ≠ 0) →
        ∃ db2, db.update s chg = (db2, some 2, none) ∧ db2.Inv ∧
          db2.array = (db.array.eraseIdx i).insertIdx
            ((db.array.eraseIdx i).countP
              (fun w => decide (0 < db.compare (db.key (chg m)) (db.key w))))
            (chg m) ∧
          db2.dict = dictDelete db.dict s ++
            [(db.idGetter (chg m), chg m)]))) := by
  refine ⟨?_, ?_⟩
  · intro h
    simp only [KeyedDB.update, h]
  · intro m hget i hi he
    have hids : db.idGetter m = s := ((get_eq_some_iff hInv s m).mp hget).2
    constructor
    · intro hkeq
      exact update_key_unchanged hc hInv hget chg i hi he hkeq
    · intro hkne hidp hfresh
      rw [update_key_changed hc hInv hget chg i hi he hkne]
      have hInv1 : ({ db with array := db.array.eraseIdx i,
                              dict := dictDelete db.dict s } : KeyedDB V K).Inv := by
        have := delete_mem_inv hc hInv i hi he
        rw [hids] at this
        exact this
      have hc1 : LawfulCompare ({ db with array := db.array.eraseIdx i,
                                          dict := dictDelete db.dict s } :
          KeyedDB V K).compare := hc
      have hid1 : ({ db with array := db.array.eraseIdx i,
                             dict := dictDelete db.dict s } : KeyedDB V K).get
          (({ db with array := db.array.eraseIdx i,
                      dict := dictDelete db.dict s } :
            KeyedDB V K).idGetter (chg m)) = none := by
        rw [get_eq_none_iff hInv1]
        intro w hw
        show db.idGetter w ≠ db.idGetter (chg m)
        rw [hidp, ← he]
        exact mem_eraseIdx_id_ne hInv.2.2 i hi w hw
      have hkey1 : ∀ w ∈ ({ db with array := db.array.eraseIdx i,
                                     dict := dictDelete db.dict s } :
          KeyedDB V K).array,
          ({ db with array := db.array.eraseIdx i,
                     dict := dictDelete db.dict s } : KeyedDB V K).key w ≠
            ({ db with array := db.array.eraseIdx i,
                       dict := dictDelete db.dict s } :
              KeyedDB V K).key (chg m) := by
        intro w hw hcon
        exact hfresh w hw (((hc _ _).2.mpr hcon.symm))
      have hok := insertSingle_ok hc1 hInv1.1 (chg m) hid1 hkey1
      simp only [hok]
      refine ⟨_, rfl, ?_, rfl, rfl⟩
      exact inv_insert_fresh hc1 hInv1 (chg m) hid1 hkey1

theorem claim6_update_reposition_witness :
    (pairDB [(1, "a"), (2, "b")]).Inv ∧
    (∃ db2, (pairDB [(1, "a"), (2, "b")]).update "b" (fun w => (5, w.2)) =
        (db2, some 2, none) ∧ db2.Inv ∧
      db2.array = [(1, "a"), (5, "b")] ∧
      db2.dict = [("a", (1, "a")), ("b", (5, "b"))]) := by
  refine ⟨by decide, ?_⟩
  obtain ⟨db2, heq, hInv2, harr, hdict⟩ :=
    ((claim6_update_reposition (pairDB [(1, "a"), (2, "b")]) lawful_intCmp
        (by decide) "b" (fun w => (5, w.2))).2 (2, "b") (by decide) 1
      (by decide) (by decide)).2 (by decide) (by decide) (by decide)
  exact ⟨db2, heq, hInv2, harr, hdict⟩

/-- C4: with a value-determined predicate and `limit ≥ 1`, the forward
traversal — start with a null cursor, then re-query `'after'` the key of
the last item of each page — produces exactly the successive blocks of the
filtered sequence: concatenated they are every matching member exactly
once, in ascending key order; every page before termination is non-empty;
a page queried `'after'` the key of the member at index `i` is the first
`limit` matching members strictly beyond `i` (so it begins with that
member's immediate successor among the matching members), and it is empty
when no matching member remains. -/
theorem claim4_pagination_completeness {V K : Type} [DecidableEq V]
    [DecidableEq K] [LinearOrder K] (db : KeyedDB V K)
    (hc : LawfulCompare db.compare) (hInv : db.Inv) (q : V → Bool)
    (limit : Nat) (hlim : 1 ≤ limit) :
    (∀ fuel, (db.array.filter q).length < fuel →
      db.afterPages q limit fuel none = chunks limit (db.array.filter q)) ∧
    (chunks limit (db.array.filter q)).flatten = db.array.filter q ∧
    (db.array.filter q).Pairwise
      (fun a b => db.compare (db.key a) (db.key b) < 0) ∧
    (∀ page ∈ chunks limit (db.array.filter q), page ≠ []) ∧
    (∀ i, ∀ hi : i < db.array.length,
      db.paginated (some (db.key (db.array.get ⟨i, hi⟩))) limit
          (some (fun v _ => q v)) .after =
        some (((db.array.drop (i + 1)).filter q).take limit)) ∧
    (∀ i, ∀ hi : i < db.array.length, (db.array.drop (i + 1)).filter q = [] →
      db.paginated (some (db.key (db.array.get ⟨i, hi⟩))) limit
          (some (fun v _ => q v)) .after = some []) := by
  refine ⟨fun fuel hf => afterPages_none hc hInv.1 q limit hlim fuel hf,
    chunks_flatten_from limit (by omega) (db.array.filter q).length _ le_rfl,
    List.Pairwise.sublist (List.filter_sublist _) hInv.1,
    chunks_pages_ne_nil limit (by omega) (db.array.filter q).length _ le_rfl,
    fun i hi => paginated_member_after hc hInv.1 q limit hlim i hi,
    fun i hi hnil => ?_⟩
  rw [paginated_member_after hc hInv.1 q limit hlim i hi, hnil, List.take_nil]

theorem claim4_pagination_completeness_witness :
    (pairDB [(1, "a"), (2, "b"), (3, "c")]).Inv ∧
    (pairDB [(1, "a"), (2, "b"), (3, "c")]).afterPages
        (fun v => decide (v.1 % 2 = 1)) 1 3 none =
      [[(1, "a")], [(3, "c")]] ∧
    (pairDB [(1, "a"), (2, "b"), (3, "c")]).paginated (some 1) 1
        (some (fun v _ => decide (v.1 % 2 = 1))) .after = some [(3, "c")] := by
  refine ⟨by decide, ?_, ?_⟩
  · rw [(claim4_pagination_completeness (pairDB [(1, "a"), (2, "b"), (3, "c")])
      lawful_intCmp (by decide) (fun v => decide (v.1 % 2 = 1)) 1 (by decide)).1
      3 (by decide)]
    have hF : (pairDB [(1, "a"), (2, "b"), (3, "c")]).array.filter
        (fun v => decide (v.1 % 2 = 1)) = [(1, "a"), (3, "c")] := by decide
    rw [hF]
    rw [chunks_cons 1 [((1 : Int), "a"), (3, "c")] one_ne_zero (by decide)]
    show [(1, "a")] :: chunks 1 [((3 : Int), "c")] = _
    rw [chunks_cons 1 [((3 : Int), "c")] one_ne_zero (by decide)]
    show [(1, "a")] :: [(3, "c")] :: chunks 1 ([] : List (Int × String)) = _
    rw [chunks_nil]
  · exact (claim4_pagination_completeness (pairDB [(1, "a"), (2, "b"), (3, "c")])
      lawful_intCmp (by decide) (fun v => decide (v.1 % 2 = 1)) 1
      (by decide)).2.2.2.2.1 0 (by decide)

/-- C7: every page `paginated` returns — any cursor, limit, predicate and
mode — is a subsequence of the ordered sequence, hence in ascending key
order (a `'before'` page is collected scanning backward but returned
ascending); and with a value-determined predicate and `limit ≥ 1`, the
backward traversal from the end yields the back-to-front blocks of the
filtered sequence, so its pages concatenated in reverse page order equal
the forward traversal's concatenation. -/
theorem claim7_pagination_symmetry {V K : Type} [DecidableEq V]
    [DecidableEq K] [LinearOrder K] (db : KeyedDB V K)
    (hc : LawfulCompare db.compare) (hInv : db.Inv) (q : V → Bool)
    (limit : Nat) (hlim : 1 ≤ limit) :
    (∀ (cursor : Option K) (lim : Nat) (pred : Option (V → Nat → Bool))
      (mode : PaginationMode) (page : List V),
      db.paginated cursor lim pred mode = some page →
      page.Sublist db.array ∧
        page.Pairwise (fun a b => db.compare (db.key a) (db.key b) < 0)) ∧
    (∀ fuel, (db.array.filter q).length < fuel →
      db.beforePages q limit fuel none = rchunks limit (db.array.filter q)) ∧
    ((rchunks limit (db.array.filter q)).reverse.flatten =
      db.array.filter q) ∧
    (∀ fuel, (db.array.filter q).length < fuel →
      (db.beforePages q limit fuel none).reverse.flatten =
        (db.afterPages q limit fuel none).flatten) := by
  refine ⟨fun cursor lim pred mode page h =>
      ⟨paginated_sublist db cursor lim pred mode page h,
       List.Pairwise.sublist
        (paginated_sublist db cursor lim pred mode page h) hInv.1⟩,
    fun fuel hf => beforePages_none hc hInv.1 q limit hlim fuel hf,
    rchunks_rev_flatten_from limit (by omega) (db.array.filter q).length _
      le_rfl,
    fun fuel hf => ?_⟩
  rw [beforePages_none hc hInv.1 q limit hlim fuel hf,
    afterPages_none hc hInv.1 q limit hlim fuel hf,
    rchunks_rev_flatten_from limit (by omega) (db.array.filter q).length _
      le_rfl,
    chunks_flatten_from limit (by omega) (db.array.filter q).length _ le_rfl]

theorem claim7_pagination_symmetry_witness :
    (pairDB [(1, "a"), (2, "b"), (3, "c")]).Inv ∧
    (pairDB [(1, "a"), (2, "b"), (3, "c")]).beforePages
        (fun v => decide (v.1 % 2 = 1)) 1 3 none =
      [[(3, "c")], [(1, "a")]] ∧
    ((pairDB [(1, "a"), (2, "b"), (3, "c")]).beforePages
        (fun v => decide (v.1 % 2 = 1)) 1 3 none).reverse.flatten =
      ((pairDB [(1, "a"), (2, "b"), (3, "c")]).afterPages
        (fun v => decide (v.1 % 2 = 1)) 1 3 none).flatten := by
  refine ⟨by decide, ?_, ?_⟩
  · rw [(claim7_pagination_symmetry (pairDB [(1, "a"), (2, "b"), (3, "c")])
      lawful_intCmp (by decide) (fun v => decide (v.1 % 2 = 1)) 1
      (by decide)).2.1 3 (by decide)]
    have hF : (pairDB [(1, "a"), (2, "b"), (3, "c")]).array.filter
        (fun v => decide (v.1 % 2 = 1)) = [(1, "a"), (3, "c")] := by decide
    rw [hF]
    rw [rchunks_cons 1 [((1 : Int), "a"), (3, "c")] one_ne_zero (by decide)]
    show [(3, "c")] :: rchunks 1 [((1 : Int), "a")] = _
    rw [rchunks_cons 1 [((1 : Int), "a")] one_ne_zero (by decide)]
    show [(3, "c")] :: [(1, "a")] :: rchunks 1 ([] : List (Int × String)) = _
    rw [rchunks_nil]
  · exact (claim7_pagination_symmetry (pairDB [(1, "a"), (2, "b"), (3, "c")])
      lawful_intCmp (by decide) (fun v => decide (v.1 % 2 = 1)) 1
      (by decide)).2.2.2 3 (by decide)

end Claims

end KeyedDb
